import Mathlib

/-!
# The ffuf HTTP request runner (`pkg/runner/simple.go`)

A shallow embedding of `SimpleRunner.Prepare` and of the response shaping of
`SimpleRunner.Execute`, with the Go library functions they call
(`strings.ReplaceAll`, `strings.Split`, `strings.Contains`,
`strings.HasPrefix`, `textproto.CanonicalMIMEHeaderKey`, `strconv.Atoi`).

Go strings and byte slices are sequences of bytes; they are lists of
naturals here.  Go maps are association lists; the order in which `range`
visits a map is not fixed by the language, so it is an explicit part of the
model.
-/

namespace Ffuf

/-! ## Strings -/

/-- A Go `string` or `[]byte`: the sequence of its bytes. -/
abbrev Str := List Nat

/-- The bytes of an ASCII literal. -/
def str (s : String) : Str := s.toList.map Char.toNat

/-- Go `strings.HasPrefix(s, p)`. -/
def hasPrefix (s p : Str) : Bool := p.isPrefixOf s

/-- Go `strings.Contains(s, sub)`: some suffix of `s` starts with `sub`. -/
def contains : Str → Str → Bool
  | [], sub => sub.isEmpty
  | c :: s, sub => hasPrefix (c :: s) sub || contains s sub

/-- The table `first` and the accept ranges of Go `unicode/utf8`: for a
leading byte, the length of the sequence it opens and the bounds of the
second byte (length 1 for ASCII and for bytes that open no sequence). -/
def utf8First (b : Nat) : Nat × Nat × Nat :=
  if b < 0xC2 then (1, 0, 0)
  else if b < 0xE0 then (2, 0x80, 0xBF)
  else if b = 0xE0 then (3, 0xA0, 0xBF)
  else if b = 0xED then (3, 0x80, 0x9F)
  else if b < 0xF0 then (3, 0x80, 0xBF)
  else if b = 0xF0 then (4, 0x90, 0xBF)
  else if b < 0xF4 then (4, 0x80, 0xBF)
  else if b = 0xF4 then (4, 0x80, 0x8F)
  else (1, 0, 0)

/-- The width returned by Go `utf8.DecodeRuneInString`: the number of bytes
of the first UTF-8 sequence of `s`, 1 for an invalid or short one, 0 for the
empty string. -/
def decodeRuneWidth : Str → Nat
  | [] => 0
  | s0 :: rest =>
    let (sz, lo, hi) := utf8First s0
    if sz ≤ 1 then 1
    else if rest.length + 1 < sz then 1
    else match rest with
      | [] => 1
      | s1 :: r1 =>
        if s1 < lo || hi < s1 then 1
        else if sz ≤ 2 then 2
        else match r1 with
          | [] => 1
          | s2 :: r2 =>
            if s2 < 0x80 || 0xBF < s2 then 1
            else if sz ≤ 3 then 3
            else match r2 with
              | [] => 1
              | s3 :: _ => if s3 < 0x80 || 0xBF < s3 then 1 else 4

/-- The loop of Go `strings.Replace` for a non-empty `old`: at the leftmost
occurrence of `old` write `new` and go on after the occurrence; a byte that
starts no occurrence is copied.  The first argument bounds the number of
steps. -/
def replaceLoop (old new : Str) : Nat → Str → Str
  | 0, s => s
  | _ + 1, [] => []
  | n + 1, c :: s =>
    if hasPrefix (c :: s) old then new ++ replaceLoop old new n ((c :: s).drop old.length)
    else c :: replaceLoop old new n s

/-- The loop of Go `strings.Replace` for the empty `old`, after the first
`new` is written: each UTF-8 sequence of `s` is followed by `new`. -/
def insertLoop (new : Str) : Nat → Str → Str
  | 0, s => s
  | _ + 1, [] => []
  | n + 1, c :: s =>
    let w := decodeRuneWidth (c :: s)
    (c :: s).take w ++ new ++ insertLoop new n ((c :: s).drop w)

/-- Go `strings.ReplaceAll(s, old, new)`: every non-overlapping occurrence of
`old`, found from the left, is replaced by `new`; for the empty `old`, `new`
is inserted before the first UTF-8 sequence and after each one. -/
def replaceAll (s old new : Str) : Str :=
  if old = new then s
  else if old = [] then new ++ insertLoop new s.length s
  else replaceLoop old new s.length s

/-- Go `strings.Split(s, sep)` for a separator of one byte `sep` (the
separators of the runner are `":"`, `" "` and `"\n"`): the segments of `s`
between the occurrences of `sep`. -/
def split (s : Str) (sep : Nat) : List Str :=
  match s with
  | [] => [[]]
  | c :: rest =>
    if c = sep then [] :: split rest sep
    else match split rest sep with
      | [] => [[c]]
      | seg :: segs => (c :: seg) :: segs

/-! ## Header names -/

/-- Go `textproto.validHeaderFieldByte`: the bytes of an RFC 7230 token, i.e.
digits, letters and the bytes of "!#$%&'*+-.^_|~" and the backquote. -/
def validHeaderFieldByte (c : Nat) : Bool :=
  (48 ≤ c && c ≤ 57) || (65 ≤ c && c ≤ 90) || (97 ≤ c && c ≤ 122) ||
  [33, 35, 36, 37, 38, 39, 42, 43, 45, 46, 94, 95, 96, 124, 126].contains c

/-- The rewriting loop of Go `textproto.canonicalMIMEHeaderKey`: a letter is
made upper case at the start and after a hyphen, lower case elsewhere. -/
def canonicalizeLoop : Bool → Str → Str
  | _, [] => []
  | upper, c :: a =>
    let c1 :=
      if upper && 97 ≤ c && c ≤ 122 then c - 32
      else if !upper && 65 ≤ c && c ≤ 90 then c + 32
      else c
    c1 :: canonicalizeLoop (c1 == 45) a

/-- Go `textproto.canonicalMIMEHeaderKey`: a key with a byte that is no
token byte is returned as it is, any other key is rewritten. -/
def canonicalMIMEHeaderKey (a : Str) : Str :=
  if a.all validHeaderFieldByte then canonicalizeLoop true a else a

/-- The quick check of Go `textproto.CanonicalMIMEHeaderKey` over the bytes
still to read, `s` being the whole key. -/
def canonicalQuickCheck (s : Str) : Bool → Str → Str
  | _, [] => s
  | upper, c :: rest =>
    if !validHeaderFieldByte c then s
    else if upper && 97 ≤ c && c ≤ 122 then canonicalMIMEHeaderKey s
    else if !upper && 65 ≤ c && c ≤ 90 then canonicalMIMEHeaderKey s
    else canonicalQuickCheck s (c == 45) rest

/-- Go `textproto.CanonicalMIMEHeaderKey`. -/
def CanonicalMIMEHeaderKey (s : Str) : Str := canonicalQuickCheck s true s

/-! ## Data model -/

/-- A Go `map[string]string`, as the list of its entries. -/
abbrev Headers := List (Str × Str)

/-- The Go map assignment `m[k] = v`. -/
def mapSet (m : Headers) (k v : Str) : Headers :=
  match m with
  | [] => [(k, v)]
  | (k1, v1) :: rest => if k1 = k then (k, v) :: rest else (k1, v1) :: mapSet rest k v

/-- Modelled from the spec: the record `ffuf.Config` (declared in `pkg/ffuf`,
which is not part of the sources at hand), with the fields that the runner
reads when it prepares a request and shapes a response. -/
structure Config where
  Url : Str
  Method : Str
  Opaque : Str
  Data : Str
  Headers : Headers
  IgnoreBody : Bool
  OutputDirectory : Str
deriving DecidableEq, Repr

/-- Modelled from the spec: the record `ffuf.Request` (declared in `pkg/ffuf`,
which is not part of the sources at hand), with the fields the spec lists.
`Input` is a Go map, given as the list of its entries. -/
structure Request where
  Method : Str
  Host : Str
  Url : Str
  Opaque : Str
  Headers : Headers
  Data : Str
  Input : List (Str × Str)
  Raw : Str
deriving DecidableEq, Repr

/-- The fields of a Go `url.URL` that the runner and its specification
refer to. -/
structure URL where
  Scheme : Str
  Host : Str
deriving DecidableEq, Repr

/-- What `Prepare` takes from outside `simple.go`: the library functions
`url.Parse` (`none` for an error) and `stringsx.Clean`, the constructor
`ffuf.NewRequest`, and the order in which the `range` over the header map
visits its entries at each round of the substitution loop, which Go leaves
open. -/
structure Env where
  urlParse : Str → Option URL
  Clean : Str → Str
  NewRequest : Config → Request
  rangeOrder : Nat → Headers → Headers
  rangeOrder_perm : ∀ n m, (rangeOrder n m).Perm m

def HOST_KEYWORD : Str := str "{HOST}"

def HOSTPORT_KEYWORD : Str := str "{HOSTPORT}"

def PORT_KEYWORD : Str := str "{PORT}"

/-! ## Prepare -/

/-- The inner loop of `Prepare` (lines 90-95): the header map rebuilt for one
keyword, the entries of the old map visited in the order `hs`. -/
def substituteHeaders (keyword inputitem : Str) (hs : Headers) : Headers :=
  hs.foldl (fun headers hv =>
    mapSet headers (CanonicalMIMEHeaderKey (replaceAll hv.1 keyword inputitem))
      (replaceAll hv.2 keyword inputitem)) []

/-- One round of the substitution loop of `Prepare` (lines 89-98), for the
pair `(keyword, inputitem)`; `n` numbers the round. -/
def substituteStep (env : Env) (n : Nat) (req : Request) (keyword inputitem : Str) : Request :=
  { req with
    Method := replaceAll req.Method keyword inputitem
    Headers := substituteHeaders keyword inputitem (env.rangeOrder n req.Headers)
    Url := replaceAll req.Url keyword inputitem
    Opaque := replaceAll req.Opaque keyword inputitem
    Data := replaceAll req.Data keyword inputitem }

/-- The substitution loop of `Prepare` (lines 88-99) over the entries of the
input map, in the order in which `range` visits them. -/
def substituteLoop (env : Env) : List (Str × Str) → Request → Request
  | [], req => req
  | (keyword, inputitem) :: rest, req =>
    substituteLoop env rest (substituteStep env rest.length req keyword inputitem)

/-- Lines 80-99 of `Prepare`: the template fields of the config copied into
the new request, then the keywords of the input substituted. -/
def substituteKeywords (env : Env) (config : Config) (input : List (Str × Str)) : Request :=
  substituteLoop env input
    { env.NewRequest config with
      Headers := config.Headers
      Url := config.Url
      Opaque := config.Opaque
      Method := config.Method
      Data := config.Data }

/-- Lines 102-104 of `Prepare`: the URL without the reserved placeholders. -/
def tempURL (url : Str) : Str :=
  replaceAll (replaceAll (replaceAll url HOST_KEYWORD []) PORT_KEYWORD []) HOSTPORT_KEYWORD []

/-- Lines 112-125 of `Prepare`: the host and the port taken from the parsed
authority `uHost`, `url` being the URL of the request.  `split[0]` and
`split[1]` exist, since the authority holds a colon. -/
def hostAndPort (uHost url : Str) : Str × Str :=
  if contains uHost (str ":") then
    let sp := split uHost 58
    (sp.getD 0 [], sp.getD 1 [])
  else
    (uHost, if hasPrefix url (str "https") then str "443" else str "80")

/-- Lines 128-138 of `Prepare`, for one field: the three reserved
placeholders replaced in turn. -/
def substituteDerived (s host hostport port : Str) : Str :=
  replaceAll (replaceAll (replaceAll s HOST_KEYWORD host) HOSTPORT_KEYWORD hostport)
    PORT_KEYWORD port

/-- The function `SimpleRunner.Prepare`.  Its error result is always `nil`
and is left out. -/
def Prepare (env : Env) (config : Config) (input : List (Str × Str)) : Request :=
  let req := substituteKeywords env config input
  match env.urlParse (env.Clean (tempURL req.Url)) with
  | none => req
  | some u =>
    let hp := hostAndPort u.Host req.Url
    { req with
      Url := substituteDerived req.Url hp.1 u.Host hp.2
      Opaque := substituteDerived req.Opaque hp.1 u.Host hp.2
      Data := substituteDerived req.Data hp.1 u.Host hp.2
      Input := input }

/-! ## A model of the library functions

`url.Parse` of Go `net/url`, as far as it decides whether a URL parses and
what its `Scheme` and `Host` are, `stringsx.Clean`, and `ffuf.NewRequest`.
They give the environment `goEnv` in which `Prepare` is evaluated on
concrete requests. -/

/-- Go `url.stringContainsCTLByte`. -/
def stringContainsCTLByte (s : Str) : Bool := s.any (fun b => b < 32 || b == 127)

/-- The position of the first occurrence of the byte `c` in `s`, as Go
`strings.IndexByte`, `none` standing for -1. -/
def indexByte : Str → Nat → Option Nat
  | [], _ => none
  | b :: s, c => if b = c then some 0 else (indexByte s c).map (· + 1)

/-- Go `strings.LastIndexByte`, `none` standing for -1. -/
def lastIndexByte : Str → Nat → Option Nat
  | [], _ => none
  | b :: s, c =>
    match lastIndexByte s c with
    | some i => some (i + 1)
    | none => if b = c then some 0 else none

/-- Go `strings.Index`, `none` standing for -1. -/
def index : Str → Str → Option Nat
  | [], sub => if sub.isEmpty then some 0 else none
  | c :: s, sub => if hasPrefix (c :: s) sub then some 0 else (index s sub).map (· + 1)

/-- Go `url.getScheme`: the scheme and the rest of the URL, `none` for the
error of a URL that starts with a colon. -/
def getScheme (rawURL : Str) : Option (Str × Str) :=
  go rawURL 0
where
  /-- The loop over the bytes still to read, `i` being the number read. -/
  go : Str → Nat → Option (Str × Str)
  | [], _ => some ([], rawURL)
  | c :: rest, i =>
    if (97 ≤ c && c ≤ 122) || (65 ≤ c && c ≤ 90) then go rest (i + 1)
    else if (48 ≤ c && c ≤ 57) || c == 43 || c == 45 || c == 46 then
      if i = 0 then some ([], rawURL) else go rest (i + 1)
    else if c == 58 then
      if i = 0 then none else some (rawURL.take i, rest)
    else some ([], rawURL)

/-- Go `strings.ToLower` on ASCII bytes. -/
def toLower (s : Str) : Str := s.map (fun c => if 65 ≤ c && c ≤ 90 then c + 32 else c)

/-- Go `url.ishex`. -/
def ishex (c : Nat) : Bool :=
  (48 ≤ c && c ≤ 57) || (97 ≤ c && c ≤ 102) || (65 ≤ c && c ≤ 70)

/-- Go `url.unhex`. -/
def unhex (c : Nat) : Nat :=
  if 48 ≤ c && c ≤ 57 then c - 48
  else if 97 ≤ c && c ≤ 102 then c - 97 + 10
  else if 65 ≤ c && c ≤ 70 then c - 65 + 10
  else 0

/-- Go `url.shouldEscape(c, encodeHost)`: letters, digits and the bytes of
"!$&'()*+,;=:[]<>" with the double quote and "-_.~" stand unescaped in a
host. -/
def shouldEscapeHost (c : Nat) : Bool :=
  !((97 ≤ c && c ≤ 122) || (65 ≤ c && c ≤ 90) || (48 ≤ c && c ≤ 57) ||
    [33, 36, 38, 39, 40, 41, 42, 43, 44, 59, 61, 58, 91, 93, 60, 62, 34].contains c ||
    [45, 95, 46, 126].contains c)

/-- The modes of Go `url.unescape` that `url.Parse` uses for the parts that
precede the query. -/
inductive encoding where
  | encodePath
  | encodeUserPassword
  | encodeHost
  | encodeZone
  | encodeFragment
deriving DecidableEq, Repr

/-- The first loop of Go `url.unescape`: whether the escapes of `s` are well
formed and, in a host or zone, its bytes allowed. -/
def unescapeValid (mode : encoding) : Str → Bool
  | [] => true
  | c :: rest =>
    if c = 37 then
      match rest with
      | h1 :: h2 :: rest2 =>
        ishex h1 && ishex h2 &&
        !(mode == encoding.encodeHost && unhex h1 < 8 && !(h1 == 50 && h2 == 53)) &&
        !(mode == encoding.encodeZone && !(h1 == 50 && h2 == 53) &&
          unhex h1 * 16 + unhex h2 != 32 && shouldEscapeHost (unhex h1 * 16 + unhex h2)) &&
        unescapeValid mode rest2
      | _ => false
    else
      !((mode == encoding.encodeHost || mode == encoding.encodeZone) && c < 128 &&
        shouldEscapeHost c) &&
      unescapeValid mode rest

/-- The second loop of Go `url.unescape`, outside a query: each escape
replaced by its byte. -/
def unescapeBytes : Str → Str
  | c :: h1 :: h2 :: rest2 =>
    if c = 37 then (unhex h1 * 16 + unhex h2) :: unescapeBytes rest2
    else c :: unescapeBytes (h1 :: h2 :: rest2)
  | s => s

/-- Go `url.unescape`, `none` for an error. -/
def unescape (s : Str) (mode : encoding) : Option Str :=
  if unescapeValid mode s then some (unescapeBytes s) else none

/-- Go `url.validOptionalPort`. -/
def validOptionalPort (port : Str) : Bool :=
  match port with
  | [] => true
  | c :: digits => c == 58 && digits.all (fun b => 48 ≤ b && b ≤ 57)

/-- Go `url.validUserinfo`. -/
def validUserinfo (s : Str) : Bool :=
  s.all (fun r =>
    (65 ≤ r && r ≤ 90) || (97 ≤ r && r ≤ 122) || (48 ≤ r && r ≤ 57) ||
    [45, 46, 95, 58, 126, 33, 36, 38, 39, 40, 41, 42, 43, 44, 59, 61, 37, 64].contains r)

/-- Go `url.parseHost`, `none` for an error. -/
def parseHost (host : Str) : Option Str :=
  if hasPrefix host (str "[") then
    match lastIndexByte host 93 with
    | none => none
    | some i =>
      if !validOptionalPort (host.drop (i + 1)) then none
      else
        match index (host.take i) (str "%25") with
        | some zone =>
          match unescape (host.take zone) encoding.encodeHost,
              unescape ((host.take i).drop zone) encoding.encodeZone,
              unescape (host.drop i) encoding.encodeHost with
          | some host1, some host2, some host3 => some (host1 ++ host2 ++ host3)
          | _, _, _ => none
        | none => unescape host encoding.encodeHost
  else
    match lastIndexByte host 58 with
    | some i =>
      if !validOptionalPort (host.drop i) then none
      else unescape host encoding.encodeHost
    | none => unescape host encoding.encodeHost

/-- Go `url.parseAuthority`, as far as the host goes: the host of the
authority, `none` for an error. -/
def parseAuthority (authority : Str) : Option Str :=
  match lastIndexByte authority 64 with
  | none => parseHost authority
  | some i =>
    match parseHost (authority.drop (i + 1)) with
    | none => none
    | some host =>
      let userinfo := authority.take i
      if !validUserinfo userinfo then none
      else
        match indexByte userinfo 58 with
        | none => (unescape userinfo encoding.encodeUserPassword).map (fun _ => host)
        | some j =>
          match unescape (userinfo.take j) encoding.encodeUserPassword,
              unescape (userinfo.drop (j + 1)) encoding.encodeUserPassword with
          | some _, some _ => some host
          | _, _ => none

/-- Go `url.parse(rawURL, false)`, as far as `Scheme` and `Host` go, `none`
for an error. -/
def parse (rawURL : Str) : Option URL :=
  if stringContainsCTLByte rawURL then none
  else if rawURL = str "*" then some { Scheme := [], Host := [] }
  else
    match getScheme rawURL with
    | none => none
    | some (scheme, rest0) =>
      let scheme := toLower scheme
      let rest := match indexByte rest0 63 with
        | some q => rest0.take q
        | none => rest0
      if !hasPrefix rest (str "/") && scheme ≠ [] then some { Scheme := scheme, Host := [] }
      else if !hasPrefix rest (str "/") &&
          (match indexByte rest 58, indexByte rest 47 with
            | some colon, some slash => decide (colon < slash)
            | some _, none => true
            | none, _ => false) then none
      else if (scheme ≠ [] || !hasPrefix rest (str "///")) && hasPrefix rest (str "//") then
        let rest2 := rest.drop 2
        let authority := match indexByte rest2 47 with
          | some i => rest2.take i
          | none => rest2
        let path := match indexByte rest2 47 with
          | some i => rest2.drop i
          | none => []
        match parseAuthority authority with
        | none => none
        | some host =>
          if unescapeValid encoding.encodePath path then some { Scheme := scheme, Host := host }
          else none
      else if unescapeValid encoding.encodePath rest then some { Scheme := scheme, Host := [] }
      else none

/-- Go `url.Parse`, as far as `Scheme` and `Host` go, `none` for an error:
the fragment is cut off at the first "#" and must unescape. -/
def urlParse (rawURL : Str) : Option URL :=
  match indexByte rawURL 35 with
  | none => parse rawURL
  | some i =>
    match parse (rawURL.take i) with
    | none => none
    | some u =>
      if unescapeValid encoding.encodeFragment (rawURL.drop (i + 1)) then some u else none

/-- The function `stringsx.Clean` on ASCII text: the bytes that are no
graphic characters, the control characters, are removed.  A byte above 127
is kept: which of the characters beyond ASCII are graphic is a matter of
the Unicode tables. -/
def Clean (s : Str) : Str := s.filter (fun b => !(b < 32 || b == 127))

/-- Modelled from the spec: the constructor `ffuf.NewRequest` (in `pkg/ffuf`,
which is not part of the sources at hand) gives a fresh request, nothing
recorded in it yet. -/
def NewRequest (_config : Config) : Request :=
  { Method := [], Host := [], Url := [], Opaque := [], Headers := [], Data := [],
    Input := [], Raw := [] }

/-- The environment of the Go library models, the entries of a header map
visited in the order of the list. -/
def goEnv : Env :=
  { urlParse := urlParse
    Clean := Clean
    NewRequest := NewRequest
    rangeOrder := fun _ m => m
    rangeOrder_perm := fun _ m => List.Perm.refl m }

/-! ## Execute -/

/-- Go `strconv.Atoi` where `int` has 64 bits: an optional sign and decimal
digits, at least one, of a value that fits; `none` for an error. -/
def Atoi (s : Str) : Option Int :=
  let neg := s.head? == some 45
  let digits := if s.head? == some 45 || s.head? == some 43 then s.tail else s
  if digits.isEmpty || !digits.all (fun ch => 48 ≤ ch && ch ≤ 57) then none
  else
    let un : Nat := digits.foldl (fun n ch => n * 10 + (ch - 48)) 0
    if neg then (if un > 2 ^ 63 then none else some (-(un : Int)))
    else (if un ≥ 2 ^ 63 then none else some (un : Int))

def MAX_DOWNLOAD_SIZE : Int := 5242880

/-- The Go map lookup `v, ok := m[k]`. -/
def mapGet (m : Headers) (k : Str) : Option Str :=
  match m with
  | [] => none
  | (k1, v1) :: rest => if k1 = k then some v1 else mapGet rest k

/-- The Go `*http.Response` that the client hands to `Execute`, as far as
`Execute` looks at it: the status, the value of `Header.Get("Content-Length")`
(empty without the header), what `ioutil.ReadAll` gives for the body (`none`
for a read error) and what `httputil.DumpResponse` gives. -/
structure HTTPResponse where
  StatusCode : Int
  contentLength : Str
  body : Option Str
  dump : Str
deriving DecidableEq, Repr

/-- What the Go HTTP stack does during one call of `Execute`: the host that
`http.NewRequestWithContext` derives from the URL (`none` when it fails), the
result of `ffuf.Version`, of `httputil.DumpRequestOut`, of `client.Do` (`none`
for a transport error), and the time to the first byte that the trace
records. -/
structure Transport where
  requestHost : Option Str
  version : Str
  rawreq : Str
  roundTrip : Option HTTPResponse
  firstByteTime : Nat
deriving DecidableEq, Repr

/-- Modelled from the spec: the record `ffuf.Response` (declared in `pkg/ffuf`,
which is not part of the sources at hand), with the fields the spec lists but
the response headers. -/
structure Response where
  StatusCode : Int
  Data : Str
  ContentLength : Int
  ContentWords : Int
  ContentLines : Int
  Cancelled : Bool
  Request : Request
  Raw : Str
  Time : Nat
deriving DecidableEq, Repr

/-- Modelled from the spec: the constructor `ffuf.NewResponse` (in `pkg/ffuf`,
which is not part of the sources at hand) gives a response for the request
with the status of the HTTP response, no body read yet: `Data` empty,
`ContentLength` zero, not `Cancelled`. -/
def NewResponse (httpresp : HTTPResponse) (req : Request) : Response :=
  { StatusCode := httpresp.StatusCode, Data := [], ContentLength := 0, ContentWords := 0,
    ContentLines := 0, Cancelled := false, Request := req, Raw := [], Time := 0 }

/-- The errors of `Execute`: the request could not be built, or the
transport failed. -/
inductive ExecuteError where
  | build
  | transport
deriving DecidableEq, Repr

def defaultUserAgent : Str :=
  str ("Mozilla/5.0 (Windows NT 10.0; Win64; x64) AppleWebKit/537.36 (KHTML, like Gecko) " ++
    "Chrome/94.0.4606.61 Safari/537.36")

/-- Lines 168-178 of `Execute`: the request with the default `User-Agent`
when it has none, and with the host of the HTTP request, which is the `Host`
header when there is one. -/
def executeRequest (req : Request) (version requestHost : Str) : Request :=
  let headers := match mapGet req.Headers (str "User-Agent") with
    | some _ => req.Headers
    | none => mapSet req.Headers (str "User-Agent") (defaultUserAgent ++ str " v" ++ version)
  { req with
    Headers := headers
    Host := match mapGet headers (str "Host") with
      | some h => h
      | none => requestHost }

/-- Lines 210-227 of `Execute`: the body read and counted. -/
def readResponse (config : Config) (t : Transport) (httpresp : HTTPResponse)
    (resp : Response) : Response :=
  let resp :=
    if config.OutputDirectory.length > 0 then
      { resp with Request := { resp.Request with Raw := t.rawreq }, Raw := httpresp.dump }
    else resp
  let resp :=
    match httpresp.body with
    | some respbody => { resp with ContentLength := (respbody.length : Int), Data := respbody }
    | none => resp
  { resp with
    ContentWords := ((split resp.Data 32).length : Int)
    ContentLines := ((split resp.Data 10).length : Int)
    Time := t.firstByteTime }

/-- The function `SimpleRunner.Execute`, the work of the Go HTTP stack given
by `t`. -/
def Execute (config : Config) (req : Request) (t : Transport) : Except ExecuteError Response :=
  match t.requestHost with
  | none => Except.error ExecuteError.build
  | some requestHost =>
    let req := executeRequest req t.version requestHost
    match t.roundTrip with
    | none => Except.error ExecuteError.transport
    | some httpresp =>
      let resp := NewResponse httpresp req
      match Atoi httpresp.contentLength with
      | some size =>
        let resp := { resp with ContentLength := size }
        if config.IgnoreBody || size > MAX_DOWNLOAD_SIZE then
          Except.ok { resp with Cancelled := true }
        else Except.ok (readResponse config t httpresp resp)
      | none => Except.ok (readResponse config t httpresp resp)

/-! ## Definitions for the statements -/

/-- The byte that the rewriting loop of `canonicalMIMEHeaderKey` writes for
the byte `c`. -/
def canonicalByte (upper : Bool) (c : Nat) : Nat :=
  if upper && 97 ≤ c && c ≤ 122 then c - 32
  else if !upper && 65 ≤ c && c ≤ 90 then c + 32
  else c

/-! ## Requests and responses of the examples -/

/-- Scenario S2 of the specification, with the header of scenario S3 and a
keyword in the path. -/
def hostConfig : Config :=
  { Url := str "http://example.com:8080/FUZZ", Method := str "GET", Opaque := [],
    Data := str "host={HOST} port={PORT}", Headers := [(str "x-FUZZ", str "{PORT}")],
    IgnoreBody := false, OutputDirectory := [] }

def fuzzInput : List (Str × Str) := [(str "FUZZ", str "abc")]

/-- A template whose header name is not in canonical form. -/
def lowerHeaderConfig : Config :=
  { Url := str "http://example.com/", Method := str "GET", Opaque := [], Data := [],
    Headers := [(str "x-test", str "v")], IgnoreBody := false, OutputDirectory := [] }

/-- Scenario S3 of the specification: no port in the authority. -/
def httpsConfig : Config :=
  { Url := str "https://example.com/", Method := str "GET", Opaque := [],
    Data := str "{PORT}", Headers := [(str "X-P", str "{PORT}")],
    IgnoreBody := false, OutputDirectory := [] }

/-- The URL of scenario S3 with its scheme in upper case. -/
def upperSchemeConfig : Config :=
  { httpsConfig with Url := str "HTTPS://example.com/" }

/-- A URL whose scheme starts with `https` and is not `https`. -/
def longSchemeConfig : Config :=
  { httpsConfig with Url := str "httpsx://example.com/" }

/-- A URL whose authority is an IPv6 address with a port. -/
def ipv6Config : Config :=
  { Url := str "http://[::1]:8080/p", Method := str "GET", Opaque := [],
    Data := str "{HOST}|{PORT}|{HOSTPORT}", Headers := [],
    IgnoreBody := false, OutputDirectory := [] }

/-- A template with the keyword in the host of its URL. -/
def hostKeywordConfig : Config :=
  { Url := str "http://FUZZ.example.com/", Method := str "GET", Opaque := [], Data := [],
    Headers := [], IgnoreBody := false, OutputDirectory := [] }

/-- An input whose value has a space, which no host name may hold. -/
def spaceInput : List (Str × Str) := [(str "FUZZ", str "a b")]

/-- The config of scenario S2 with `IgnoreBody` set. -/
def ignoreBodyConfig : Config := { hostConfig with IgnoreBody := true }

/-- A round trip that ends in a response of five bytes. -/
def plainTransport : Transport :=
  { requestHost := some (str "example.com:8080"), version := str "1.3.1", rawreq := [],
    roundTrip := some
      { StatusCode := 200, contentLength := str "5", body := some (str "a b\nc"), dump := [] },
    firstByteTime := 7 }

/-- The response that `Execute` shapes from `plainTransport`. -/
def plainResponse : Response :=
  { StatusCode := 200, Data := str "a b\nc", ContentLength := 5, ContentWords := 2,
    ContentLines := 2, Cancelled := false,
    Request := executeRequest (Prepare goEnv hostConfig fuzzInput) (str "1.3.1")
      (str "example.com:8080"),
    Raw := [], Time := 7 }

/-- A round trip that ends in a response without `Content-Length`, as a
chunked one. -/
def chunkedTransport : Transport :=
  { requestHost := some (str "example.com:8080"), version := str "1.3.1", rawreq := [],
    roundTrip := some
      { StatusCode := 200, contentLength := [], body := some (str "a b\nc"), dump := [] },
    firstByteTime := 7 }

/-- Scenario S4 of the specification: the server announces ten million
bytes. -/
def oversizeTransport : Transport :=
  { requestHost := some (str "example.com:8080"), version := str "1.3.1", rawreq := [],
    roundTrip := some
      { StatusCode := 200, contentLength := str "10000000", body := some (str "a b\nc"),
        dump := [] },
    firstByteTime := 7 }

/-! ## Input maps whose entries do not interfere -/

/-- Two entries of an input map do not interfere: keywords and values are
not empty, the keywords share no byte, and neither value shares a byte with
the keyword of the other entry. -/
def nonInterfering (a b : Str × Str) : Prop :=
  a.1 ≠ [] ∧ a.2 ≠ [] ∧ b.1 ≠ [] ∧ b.2 ≠ [] ∧
  (∀ x ∈ a.1, x ∉ b.1) ∧ (∀ x ∈ a.2, x ∉ b.1) ∧ (∀ x ∈ b.2, x ∉ a.1)

instance nonInterferingDecidable : DecidableRel nonInterfering := fun a b => by
  unfold nonInterfering
  infer_instance

/-- The word `w` is not empty and shares no byte with any keyword of the
input. -/
def apartFromKeywords (input : List (Str × Str)) (w : Str) : Prop :=
  w ≠ [] ∧ ∀ kv ∈ input, ∀ b ∈ w, b ∉ kv.1

instance apartFromKeywordsDecidable (input : List (Str × Str)) (w : Str) :
    Decidable (apartFromKeywords input w) := by
  unfold apartFromKeywords
  infer_instance

/-- One template field after the substitution loop of `Prepare`: the
keywords of the input replaced in turn. -/
def substituteAll (input : List (Str × Str)) (s : Str) : Str :=
  input.foldl (fun s kv => replaceAll s kv.1 kv.2) s

/-- The strings that `Prepare` puts for `{HOST}`, `{HOSTPORT}` and `{PORT}`;
none when the URL does not parse. -/
def derivedWords (env : Env) (config : Config) (input : List (Str × Str)) : List Str :=
  match env.urlParse (env.Clean (tempURL (substituteKeywords env config input).Url)) with
  | none => []
  | some u =>
    [(hostAndPort u.Host (substituteKeywords env config input).Url).1, u.Host,
      (hostAndPort u.Host (substituteKeywords env config input).Url).2]

/-- The request holds no occurrence of the keyword `k` in `Method`, `Url`,
`Opaque`, `Data` or the value of a header. -/
def freeOf (k : Str) (req : Request) : Prop :=
  contains req.Method k = false ∧ contains req.Url k = false ∧
  contains req.Opaque k = false ∧ contains req.Data k = false ∧
  ∀ hv ∈ req.Headers, contains hv.2 k = false

/-- A template with one keyword in its path. -/
def pathConfig : Config :=
  { Url := str "http://example.com/FUZZ", Method := str "GET", Opaque := [], Data := [],
    Headers := [], IgnoreBody := false, OutputDirectory := [] }

/-- An input map whose first value is the keyword of its second entry. -/
def chainedInput : List (Str × Str) := [(str "FUZZ", str "W2"), (str "W2", str "x")]

/-- The entries of `chainedInput` in the other order. -/
def chainedInputSwapped : List (Str × Str) := [(str "W2", str "x"), (str "FUZZ", str "W2")]

/-- A template with two keywords, one of them in a header name. -/
def twoKeywordConfig : Config :=
  { Url := str "http://example.com/FUZZ?q=W2", Method := str "GET", Opaque := [],
    Data := str "a=FUZZ&b=W2", Headers := [(str "xW2", str "FUZZ")],
    IgnoreBody := false, OutputDirectory := [] }

def twoKeywordInput : List (Str × Str) := [(str "FUZZ", str "abc"), (str "W2", str "q")]

def twoKeywordInputSwapped : List (Str × Str) := [(str "W2", str "q"), (str "FUZZ", str "abc")]

/-- An input map whose value holds its keyword. -/
def selfInput : List (Str × Str) := [(str "FUZZ", str "aFUZZ")]

/-- A template whose header name is the keyword `X-A` in lower case. -/
def lowerNameConfig : Config :=
  { Url := str "http://example.com/", Method := str "GET", Opaque := [], Data := [],
    Headers := [(str "x-a", str "v")], IgnoreBody := false, OutputDirectory := [] }

def upperNameInput : List (Str × Str) := [(str "X-A", str "q")]

/-! ## Splitting and counting -/

theorem split_ne_nil (s : Str) (sep : Nat) : split s sep ≠ [] := by
  cases s with
  | nil => simp [split]
  | cons c rest =>
    unfold split
    split_ifs
    · simp
    · cases split rest sep <;> simp

theorem split_length (s : Str) (sep : Nat) : (split s sep).length = s.count sep + 1 := by
  induction s with
  | nil => simp [split]
  | cons c rest ih =>
    unfold split
    by_cases h : c = sep
    · simp [h, ih]
    · have hne := split_ne_nil rest sep
      cases hs : split rest sep with
      | nil => exact absurd hs hne
      | cons seg segs =>
        rw [hs] at ih
        simp only [if_neg h, List.length_cons] at ih ⊢
        rw [List.count_cons_of_ne (Ne.symm h)]
        exact ih

/-! ## The response of Execute -/

theorem readResponse_ContentWords (config : Config) (t : Transport) (httpresp : HTTPResponse)
    (r : Response) :
    (readResponse config t httpresp r).ContentWords =
      ((split (readResponse config t httpresp r).Data 32).length : Int) := rfl

theorem readResponse_ContentLines (config : Config) (t : Transport) (httpresp : HTTPResponse)
    (r : Response) :
    (readResponse config t httpresp r).ContentLines =
      ((split (readResponse config t httpresp r).Data 10).length : Int) := rfl

theorem readResponse_Cancelled (config : Config) (t : Transport) (httpresp : HTTPResponse)
    (r : Response) : (readResponse config t httpresp r).Cancelled = r.Cancelled := by
  unfold readResponse
  cases httpresp.body <;> split_ifs <;> rfl

theorem readResponse_body (config : Config) (t : Transport) (httpresp : HTTPResponse)
    (r : Response) (respbody : Str) (hb : httpresp.body = some respbody) :
    (readResponse config t httpresp r).Data = respbody ∧
    (readResponse config t httpresp r).ContentLength = (respbody.length : Int) := by
  unfold readResponse
  rw [hb]
  split_ifs <;> exact ⟨rfl, rfl⟩

theorem readResponse_no_body (config : Config) (t : Transport) (httpresp : HTTPResponse)
    (r : Response) (hb : httpresp.body = none) :
    (readResponse config t httpresp r).Data = r.Data ∧
    (readResponse config t httpresp r).ContentLength = r.ContentLength := by
  unfold readResponse
  rw [hb]
  split_ifs <;> exact ⟨rfl, rfl⟩

/-- The two ways in which `Execute` returns a response: the body skipped, for
a `Content-Length` that parses and either `IgnoreBody` or a length above the
cap, or the body read. -/
theorem Execute_ok_cases (config : Config) (req : Request) (t : Transport) (resp : Response)
    (h : Execute config req t = Except.ok resp) :
    ∃ host httpresp, t.requestHost = some host ∧ t.roundTrip = some httpresp ∧
      ((∃ size, Atoi httpresp.contentLength = some size ∧
          (config.IgnoreBody = true ∨ size > MAX_DOWNLOAD_SIZE) ∧
          resp = { NewResponse httpresp (executeRequest req t.version host) with
                   ContentLength := size, Cancelled := true }) ∨
       ((¬ ∃ size, Atoi httpresp.contentLength = some size ∧
          (config.IgnoreBody = true ∨ size > MAX_DOWNLOAD_SIZE)) ∧
          resp = readResponse config t httpresp
            { NewResponse httpresp (executeRequest req t.version host) with
              ContentLength := (Atoi httpresp.contentLength).getD 0 })) := by
  unfold Execute at h
  cases hq : t.requestHost with
  | none => simp [hq] at h
  | some host =>
    cases hr : t.roundTrip with
    | none => simp [hq, hr] at h
    | some httpresp =>
      refine ⟨host, httpresp, rfl, rfl, ?_⟩
      simp only [hq, hr] at h
      cases ha : Atoi httpresp.contentLength with
      | none =>
        simp only [ha] at h
        right
        exact ⟨by simp, (Except.ok.inj h).symm⟩
      | some size =>
        simp only [ha] at h
        split_ifs at h with hcond
        · left
          refine ⟨size, rfl, ?_, (Except.ok.inj h).symm⟩
          simpa using hcond
        · right
          refine ⟨?_, (Except.ok.inj h).symm⟩
          rintro ⟨size1, h1, h2⟩
          cases h1
          exact hcond (by simpa using h2)

/-- Claim C7.  A response that `Execute` returns with its body not skipped
(`Cancelled` false) has `ContentWords` equal to the number of segments of
`Data` between its space bytes, one more than the number of spaces, and
`ContentLines` equal to the number of segments between its newline bytes, one
more than the number of newlines; both are at least 1, whatever `Data` is. -/
theorem Execute_content_words_lines (config : Config) (req : Request) (t : Transport)
    (resp : Response) (h : Execute config req t = Except.ok resp)
    (hc : resp.Cancelled = false) :
    resp.ContentWords = ((split resp.Data 32).length : Int) ∧
    resp.ContentWords = (resp.Data.count 32 : Int) + 1 ∧
    resp.ContentLines = ((split resp.Data 10).length : Int) ∧
    resp.ContentLines = (resp.Data.count 10 : Int) + 1 ∧
    1 ≤ resp.ContentWords ∧ 1 ≤ resp.ContentLines := by
  obtain ⟨host, httpresp, -, -, hcase⟩ := Execute_ok_cases config req t resp h
  have hw : resp.ContentWords = ((split resp.Data 32).length : Int) ∧
      resp.ContentLines = ((split resp.Data 10).length : Int) := by
    rcases hcase with ⟨size, -, -, hresp⟩ | ⟨-, hresp⟩
    · rw [hresp] at hc
      simp at hc
    · rw [hresp]
      exact ⟨readResponse_ContentWords _ _ _ _, readResponse_ContentLines _ _ _ _⟩
  obtain ⟨h1, h2⟩ := hw
  have l1 := split_length resp.Data 32
  have l2 := split_length resp.Data 10
  refine ⟨h1, ?_, h2, ?_, ?_, ?_⟩
  · rw [h1, l1]; push_cast; ring
  · rw [h2, l2]; push_cast; ring
  · rw [h1, l1]; push_cast; omega
  · rw [h2, l2]; push_cast; omega

/-- Claim C6.  A response that `Execute` returns has `ContentLength` equal to
the number of bytes of `Data` when the body was read (not skipped, and
`ioutil.ReadAll` succeeded); when the body was skipped or the read failed, it
is the integer that `Content-Length` parses to, and 0 when the header does
not parse. -/
theorem Execute_content_length (config : Config) (req : Request) (t : Transport)
    (resp : Response) (httpresp : HTTPResponse) (ht : t.roundTrip = some httpresp)
    (h : Execute config req t = Except.ok resp) :
    (resp.Cancelled = false → httpresp.body.isSome = true →
      resp.ContentLength = (resp.Data.length : Int) ∧ some resp.Data = httpresp.body) ∧
    (resp.Cancelled = true ∨ httpresp.body = none →
      resp.ContentLength = (Atoi httpresp.contentLength).getD 0) := by
  obtain ⟨host, httpresp1, -, hr, hcase⟩ := Execute_ok_cases config req t resp h
  rw [ht] at hr
  cases hr
  rcases hcase with ⟨size, ha, -, hresp⟩ | ⟨-, hresp⟩
  · subst hresp
    constructor
    · intro hc; simp at hc
    · intro _; simp [ha]
  · constructor
    · intro _ hb
      obtain ⟨body, hbody⟩ := Option.isSome_iff_exists.mp hb
      obtain ⟨hd, hl⟩ := readResponse_body config t httpresp
        { NewResponse httpresp (executeRequest req t.version host) with
          ContentLength := (Atoi httpresp.contentLength).getD 0 } body hbody
      rw [hresp, hd, hl, hbody]
      exact ⟨rfl, rfl⟩
    · intro hor
      rcases hor with hc | hb
      · rw [hresp, readResponse_Cancelled] at hc
        simp [NewResponse] at hc
      · obtain ⟨-, hl⟩ := readResponse_no_body config t httpresp
          { NewResponse httpresp (executeRequest req t.version host) with
            ContentLength := (Atoi httpresp.contentLength).getD 0 } hb
        rw [hresp, hl]

/-- Claim C5, as the code has it.  When the transport gives a response whose
`Content-Length` parses to `size`, and `IgnoreBody` is set or `size` exceeds
`MAX_DOWNLOAD_SIZE`, `Execute` returns a response with `Cancelled` true, empty
`Data` and `ContentLength` equal to `size`. -/
theorem Execute_skips_body (config : Config) (req : Request) (t : Transport) (host : Str)
    (httpresp : HTTPResponse) (size : Int) (hq : t.requestHost = some host)
    (ht : t.roundTrip = some httpresp) (ha : Atoi httpresp.contentLength = some size)
    (hs : config.IgnoreBody = true ∨ size > MAX_DOWNLOAD_SIZE) :
    ∃ resp, Execute config req t = Except.ok resp ∧ resp.Cancelled = true ∧
      resp.Data = [] ∧ resp.ContentLength = size := by
  refine ⟨{ NewResponse httpresp (executeRequest req t.version host) with
            ContentLength := size, Cancelled := true }, ?_, rfl, rfl, rfl⟩
  unfold Execute
  simp only [hq, ht, ha]
  rw [if_pos]
  simpa using hs

/-! ## The phases of Prepare -/

theorem Prepare_of_parse_error (env : Env) (config : Config) (input : List (Str × Str))
    (h : env.urlParse (env.Clean (tempURL (substituteKeywords env config input).Url)) = none) :
    Prepare env config input = substituteKeywords env config input := by
  unfold Prepare
  simp only [h]

theorem Prepare_of_parse (env : Env) (config : Config) (input : List (Str × Str)) (u : URL)
    (h : env.urlParse (env.Clean (tempURL (substituteKeywords env config input).Url)) = some u) :
    Prepare env config input =
      { substituteKeywords env config input with
        Url := substituteDerived (substituteKeywords env config input).Url
          (hostAndPort u.Host (substituteKeywords env config input).Url).1 u.Host
          (hostAndPort u.Host (substituteKeywords env config input).Url).2
        Opaque := substituteDerived (substituteKeywords env config input).Opaque
          (hostAndPort u.Host (substituteKeywords env config input).Url).1 u.Host
          (hostAndPort u.Host (substituteKeywords env config input).Url).2
        Data := substituteDerived (substituteKeywords env config input).Data
          (hostAndPort u.Host (substituteKeywords env config input).Url).1 u.Host
          (hostAndPort u.Host (substituteKeywords env config input).Url).2
        Input := input } := by
  unfold Prepare
  simp only [h]

theorem Prepare_Method (env : Env) (config : Config) (input : List (Str × Str)) :
    (Prepare env config input).Method = (substituteKeywords env config input).Method := by
  cases h : env.urlParse (env.Clean (tempURL (substituteKeywords env config input).Url)) with
  | none => rw [Prepare_of_parse_error env config input h]
  | some u => rw [Prepare_of_parse env config input u h]

theorem Prepare_Headers (env : Env) (config : Config) (input : List (Str × Str)) :
    (Prepare env config input).Headers = (substituteKeywords env config input).Headers := by
  cases h : env.urlParse (env.Clean (tempURL (substituteKeywords env config input).Url)) with
  | none => rw [Prepare_of_parse_error env config input h]
  | some u => rw [Prepare_of_parse env config input u h]

/-- Claim C9.  The phase of `Prepare` that resolves the reserved placeholders
leaves `Method` and `Headers` as the substitution of the keywords left them:
a header whose value holds one of the literals `{HOST}`, `{HOSTPORT}`, `{PORT}`
after the keywords are substituted is a header of the returned request, the
literal still in its value. -/
theorem Prepare_frame (env : Env) (config : Config) (input : List (Str × Str)) :
    (Prepare env config input).Method = (substituteKeywords env config input).Method ∧
    (Prepare env config input).Headers = (substituteKeywords env config input).Headers ∧
    ∀ name value placeholder, placeholder ∈ [HOST_KEYWORD, HOSTPORT_KEYWORD, PORT_KEYWORD] →
      (name, value) ∈ (substituteKeywords env config input).Headers →
      contains value placeholder = true →
      (name, value) ∈ (Prepare env config input).Headers ∧ contains value placeholder = true := by
  refine ⟨Prepare_Method env config input, Prepare_Headers env config input, ?_⟩
  intro name value placeholder _ hmem hc
  rw [Prepare_Headers]
  exact ⟨hmem, hc⟩

/-! ## Header names are canonical -/

theorem canonicalizeLoop_cons (upper : Bool) (c : Nat) (a : Str) :
    canonicalizeLoop upper (c :: a) =
      canonicalByte upper c :: canonicalizeLoop (canonicalByte upper c == 45) a := rfl

theorem canonicalByte_idem (upper : Bool) (c : Nat) :
    canonicalByte upper (canonicalByte upper c) = canonicalByte upper c := by
  unfold canonicalByte
  cases upper <;> simp <;> split_ifs <;> omega

theorem canonicalByte_valid (upper : Bool) (c : Nat) (h : validHeaderFieldByte c = true) :
    validHeaderFieldByte (canonicalByte upper c) = true := by
  unfold canonicalByte
  split_ifs with h1 h2
  · simp only [Bool.and_eq_true, decide_eq_true_eq] at h1
    have : 65 ≤ c - 32 ∧ c - 32 ≤ 90 := by omega
    simp [validHeaderFieldByte, this.1, this.2]
  · simp only [Bool.and_eq_true, decide_eq_true_eq] at h2
    have : 97 ≤ c + 32 ∧ c + 32 ≤ 122 := by omega
    simp [validHeaderFieldByte, this.1, this.2]
  · exact h

theorem canonicalizeLoop_idem (a : Str) : ∀ upper : Bool,
    canonicalizeLoop upper (canonicalizeLoop upper a) = canonicalizeLoop upper a := by
  induction a with
  | nil => intro upper; rfl
  | cons c a ih =>
    intro upper
    rw [canonicalizeLoop_cons upper c a, canonicalizeLoop_cons, canonicalByte_idem, ih]

theorem canonicalizeLoop_valid (a : Str) : ∀ upper : Bool,
    a.all validHeaderFieldByte = true →
    (canonicalizeLoop upper a).all validHeaderFieldByte = true := by
  induction a with
  | nil => intro upper _; rfl
  | cons c a ih =>
    intro upper h
    rw [canonicalizeLoop_cons]
    simp only [List.all_cons, Bool.and_eq_true] at h ⊢
    exact ⟨canonicalByte_valid upper c h.1, ih _ h.2⟩

/-- The inner function `canonicalMIMEHeaderKey` gives a key that it leaves
as it is. -/
theorem canonicalMIMEHeaderKey_idem (a : Str) :
    canonicalMIMEHeaderKey (canonicalMIMEHeaderKey a) = canonicalMIMEHeaderKey a := by
  unfold canonicalMIMEHeaderKey
  by_cases h : a.all validHeaderFieldByte = true
  · rw [if_pos h, if_pos (canonicalizeLoop_valid a true h), canonicalizeLoop_idem]
  · rw [if_neg h, if_neg h]

theorem canonicalQuickCheck_eq (rest : Str) : ∀ (pre : Str) (upper : Bool),
    canonicalizeLoop true (pre ++ rest) = pre ++ canonicalizeLoop upper rest →
    canonicalQuickCheck (pre ++ rest) upper rest = canonicalMIMEHeaderKey (pre ++ rest) := by
  induction rest with
  | nil =>
    intro pre upper h
    simp only [canonicalQuickCheck, canonicalMIMEHeaderKey]
    split_ifs
    · rw [h]; rfl
    · rfl
  | cons c r ih =>
    intro pre upper h
    unfold canonicalQuickCheck
    by_cases hv : validHeaderFieldByte c = true
    · rw [if_neg (by simp [hv])]
      by_cases h1 : (upper && decide (97 ≤ c) && decide (c ≤ 122)) = true
      · rw [if_pos h1]
      · rw [if_neg h1]
        by_cases h2 : (!upper && decide (65 ≤ c) && decide (c ≤ 90)) = true
        · rw [if_pos h2]
        · rw [if_neg h2]
          have hc : canonicalByte upper c = c := by
            unfold canonicalByte
            rw [if_neg h1, if_neg h2]
          have hstep := ih (pre ++ [c]) (c == 45)
          simp only [List.append_assoc, List.singleton_append] at hstep
          apply hstep
          rw [h, canonicalizeLoop_cons, hc]
    · rw [if_pos (by simp [hv])]
      unfold canonicalMIMEHeaderKey
      rw [if_neg]
      simp only [List.all_append, List.all_cons, Bool.and_eq_true, not_and]
      intro _ hc
      exact absurd hc hv

/-- The quick check of `CanonicalMIMEHeaderKey` changes nothing in what the
inner function gives. -/
theorem CanonicalMIMEHeaderKey_eq (s : Str) :
    CanonicalMIMEHeaderKey s = canonicalMIMEHeaderKey s :=
  canonicalQuickCheck_eq s [] true rfl

theorem CanonicalMIMEHeaderKey_idem (s : Str) :
    CanonicalMIMEHeaderKey (CanonicalMIMEHeaderKey s) = CanonicalMIMEHeaderKey s := by
  rw [CanonicalMIMEHeaderKey_eq, CanonicalMIMEHeaderKey_eq, canonicalMIMEHeaderKey_idem]

/-! ## The header map -/

theorem mapSet_keys (P : Str → Prop) (m : Headers) (k v : Str) (hk : P k)
    (hm : ∀ hv ∈ m, P hv.1) : ∀ hv ∈ mapSet m k v, P hv.1 := by
  induction m with
  | nil =>
    intro hv hmem
    simp only [mapSet, List.mem_singleton] at hmem
    rw [hmem]; exact hk
  | cons e rest ih =>
    obtain ⟨k1, v1⟩ := e
    intro hv hmem
    unfold mapSet at hmem
    split_ifs at hmem with heq
    · rcases List.mem_cons.mp hmem with h | h
      · rw [h]; exact hk
      · exact hm hv (List.mem_cons_of_mem _ h)
    · rcases List.mem_cons.mp hmem with h | h
      · rw [h]; exact hm (k1, v1) (List.mem_cons_self _ _)
      · exact ih (fun x hx => hm x (List.mem_cons_of_mem _ hx)) hv h

theorem mapSet_values (Q : Str → Prop) (m : Headers) (k v : Str) (hv0 : Q v)
    (hm : ∀ hv ∈ m, Q hv.2) : ∀ hv ∈ mapSet m k v, Q hv.2 := by
  induction m with
  | nil =>
    intro hv hmem
    simp only [mapSet, List.mem_singleton] at hmem
    rw [hmem]; exact hv0
  | cons e rest ih =>
    obtain ⟨k1, v1⟩ := e
    intro hv hmem
    unfold mapSet at hmem
    split_ifs at hmem with heq
    · rcases List.mem_cons.mp hmem with h | h
      · rw [h]; exact hv0
      · exact hm hv (List.mem_cons_of_mem _ h)
    · rcases List.mem_cons.mp hmem with h | h
      · rw [h]; exact hm (k1, v1) (List.mem_cons_self _ _)
      · exact ih (fun x hx => hm x (List.mem_cons_of_mem _ hx)) hv h

theorem foldl_mapSet_keys (P : Str → Prop) (f g : Str × Str → Str) (hs : Headers)
    (hf : ∀ e ∈ hs, P (f e)) : ∀ acc : Headers, (∀ hv ∈ acc, P hv.1) →
    ∀ hv ∈ hs.foldl (fun headers e => mapSet headers (f e) (g e)) acc, P hv.1 := by
  induction hs with
  | nil => intro acc hacc; exact hacc
  | cons e rest ih =>
    intro acc hacc
    simp only [List.foldl_cons]
    exact ih (fun x hx => hf x (List.mem_cons_of_mem _ hx)) _
      (mapSet_keys P acc (f e) (g e) (hf e (List.mem_cons_self _ _)) hacc)

theorem foldl_mapSet_values (Q : Str → Prop) (f g : Str × Str → Str) (hs : Headers)
    (hg : ∀ e ∈ hs, Q (g e)) : ∀ acc : Headers, (∀ hv ∈ acc, Q hv.2) →
    ∀ hv ∈ hs.foldl (fun headers e => mapSet headers (f e) (g e)) acc, Q hv.2 := by
  induction hs with
  | nil => intro acc hacc; exact hacc
  | cons e rest ih =>
    intro acc hacc
    simp only [List.foldl_cons]
    exact ih (fun x hx => hg x (List.mem_cons_of_mem _ hx)) _
      (mapSet_values Q acc (f e) (g e) (hg e (List.mem_cons_self _ _)) hacc)

/-- Every name of the header map that one round of the substitution loop
builds is canonical. -/
theorem substituteHeaders_canonical (keyword inputitem : Str) (hs : Headers) :
    ∀ hv ∈ substituteHeaders keyword inputitem hs, CanonicalMIMEHeaderKey hv.1 = hv.1 := by
  unfold substituteHeaders
  exact foldl_mapSet_keys (fun n => CanonicalMIMEHeaderKey n = n) _ _ hs
    (fun e _ => CanonicalMIMEHeaderKey_idem _) [] (fun _ h => absurd h (List.not_mem_nil _))

theorem substituteLoop_canonical (env : Env) (input : List (Str × Str)) : ∀ req : Request,
    (input ≠ [] ∨ ∀ hv ∈ req.Headers, CanonicalMIMEHeaderKey hv.1 = hv.1) →
    ∀ hv ∈ (substituteLoop env input req).Headers, CanonicalMIMEHeaderKey hv.1 = hv.1 := by
  induction input with
  | nil =>
    intro req h
    rcases h with h | h
    · exact absurd rfl h
    · exact h
  | cons kv rest ih =>
    obtain ⟨keyword, inputitem⟩ := kv
    intro req _
    unfold substituteLoop
    apply ih
    right
    exact substituteHeaders_canonical keyword inputitem _

/-! ## The claims on Execute at concrete responses -/

theorem Execute_content_words_lines_witness :
    Execute hostConfig (Prepare goEnv hostConfig fuzzInput) plainTransport =
      Except.ok plainResponse ∧
    plainResponse.Cancelled = false ∧
    plainResponse.ContentWords = ((split plainResponse.Data 32).length : Int) ∧
    plainResponse.ContentWords = (plainResponse.Data.count 32 : Int) + 1 ∧
    plainResponse.ContentLines = ((split plainResponse.Data 10).length : Int) ∧
    plainResponse.ContentLines = (plainResponse.Data.count 10 : Int) + 1 ∧
    1 ≤ plainResponse.ContentWords ∧ 1 ≤ plainResponse.ContentLines :=
  ⟨by rfl, by rfl,
    Execute_content_words_lines hostConfig (Prepare goEnv hostConfig fuzzInput) plainTransport
      plainResponse (by rfl) (by rfl)⟩

theorem Execute_content_length_witness :
    (plainResponse.Cancelled = false →
      (some (str "a b\nc")).isSome = true →
      plainResponse.ContentLength = (plainResponse.Data.length : Int) ∧
        some plainResponse.Data = some (str "a b\nc")) ∧
    (plainResponse.Cancelled = true ∨ some (str "a b\nc") = none →
      plainResponse.ContentLength = (Atoi (str "5")).getD 0) :=
  Execute_content_length hostConfig (Prepare goEnv hostConfig fuzzInput) plainTransport
    plainResponse
    { StatusCode := 200, contentLength := str "5", body := some (str "a b\nc"), dump := [] }
    (by rfl) (by rfl)

/-- With `IgnoreBody` set and no `Content-Length` in the response, `Execute`
reads the body: the response is not `Cancelled` and its `Data` is the body. -/
theorem Execute_ignoreBody_without_length :
    ignoreBodyConfig.IgnoreBody = true ∧
    (Execute ignoreBodyConfig (Prepare goEnv ignoreBodyConfig fuzzInput)
      chunkedTransport).toOption.map (fun r => (r.Cancelled, r.Data)) =
      some (false, str "a b\nc") := by
  constructor <;> rfl

theorem Execute_skips_body_witness :
    (10000000 : Int) > MAX_DOWNLOAD_SIZE ∧
    ∃ resp, Execute hostConfig (Prepare goEnv hostConfig fuzzInput) oversizeTransport =
        Except.ok resp ∧
      resp.Cancelled = true ∧ resp.Data = [] ∧ resp.ContentLength = 10000000 :=
  ⟨by decide,
    Execute_skips_body hostConfig (Prepare goEnv hostConfig fuzzInput) oversizeTransport
      (str "example.com:8080")
      { StatusCode := 200, contentLength := str "10000000", body := some (str "a b\nc"),
        dump := [] }
      10000000 (by rfl) (by rfl) (by rfl) (Or.inr (by decide))⟩

/-! ## The claims on Prepare -/

theorem Prepare_frame_witness :
    (Prepare goEnv httpsConfig fuzzInput).Method = str "GET" ∧
    (Prepare goEnv httpsConfig fuzzInput).Headers = [(str "X-P", str "{PORT}")] ∧
    (str "X-P", str "{PORT}") ∈ (Prepare goEnv httpsConfig fuzzInput).Headers ∧
    contains (str "{PORT}") PORT_KEYWORD = true := by
  have h := Prepare_frame goEnv httpsConfig fuzzInput
  refine ⟨by decide, by decide, ?_⟩
  exact h.2.2 (str "X-P") (str "{PORT}") PORT_KEYWORD (by decide) (by decide) (by decide)

/-- Claim C2, as the code has it.  When the input map is not empty, or the
header names of the config are canonical, every header name of the request
that `Prepare` returns is canonical: `CanonicalMIMEHeaderKey` returns it
unchanged. -/
theorem Prepare_headers_canonical (env : Env) (config : Config) (input : List (Str × Str))
    (h : input ≠ [] ∨ ∀ hv ∈ config.Headers, CanonicalMIMEHeaderKey hv.1 = hv.1) :
    ∀ hv ∈ (Prepare env config input).Headers, CanonicalMIMEHeaderKey hv.1 = hv.1 := by
  rw [Prepare_Headers]
  exact substituteLoop_canonical env input _ h

theorem Prepare_headers_canonical_witness :
    fuzzInput ≠ [] ∧
    (Prepare goEnv hostConfig fuzzInput).Headers = [(str "X-Abc", str "{PORT}")] ∧
    ∀ hv ∈ (Prepare goEnv hostConfig fuzzInput).Headers, CanonicalMIMEHeaderKey hv.1 = hv.1 :=
  ⟨by decide, by decide, Prepare_headers_canonical goEnv hostConfig fuzzInput (Or.inl (by decide))⟩

/-- With the empty input map the header names of the config go into the
request as they are: the name `x-test` stays, and its canonical form is
`X-Test`. -/
theorem Prepare_empty_input_header :
    (str "x-test", str "v") ∈ (Prepare goEnv lowerHeaderConfig []).Headers ∧
    CanonicalMIMEHeaderKey (str "x-test") = str "X-Test" ∧
    CanonicalMIMEHeaderKey (str "x-test") ≠ str "x-test" := by
  decide

/-- Claim C4, as the code has it.  When the URL parses and its authority
holds no colon, `Prepare` puts the authority for `{HOST}` and for
`{HOSTPORT}`, and for `{PORT}` the port `443` when the URL, after the
substitution of the keywords, begins with the bytes `https`, and `80` when it
does not. -/
theorem Prepare_implicit_port (env : Env) (config : Config) (input : List (Str × Str))
    (u : URL)
    (h : env.urlParse (env.Clean (tempURL (substituteKeywords env config input).Url)) = some u)
    (hc : contains u.Host (str ":") = false) :
    (Prepare env config input).Url =
      substituteDerived (substituteKeywords env config input).Url u.Host u.Host
        (if hasPrefix (substituteKeywords env config input).Url (str "https") then str "443"
          else str "80") ∧
    (Prepare env config input).Opaque =
      substituteDerived (substituteKeywords env config input).Opaque u.Host u.Host
        (if hasPrefix (substituteKeywords env config input).Url (str "https") then str "443"
          else str "80") ∧
    (Prepare env config input).Data =
      substituteDerived (substituteKeywords env config input).Data u.Host u.Host
        (if hasPrefix (substituteKeywords env config input).Url (str "https") then str "443"
          else str "80") := by
  rw [Prepare_of_parse env config input u h]
  simp only [hostAndPort, hc]
  exact ⟨rfl, rfl, rfl⟩

theorem Prepare_implicit_port_witness :
    goEnv.urlParse (goEnv.Clean (tempURL (substituteKeywords goEnv httpsConfig fuzzInput).Url)) =
      some { Scheme := str "https", Host := str "example.com" } ∧
    contains (str "example.com") (str ":") = false ∧
    (Prepare goEnv httpsConfig fuzzInput).Data = str "443" ∧
    (Prepare goEnv httpsConfig fuzzInput).Data =
      substituteDerived (substituteKeywords goEnv httpsConfig fuzzInput).Data
        (str "example.com") (str "example.com")
        (if hasPrefix (substituteKeywords goEnv httpsConfig fuzzInput).Url (str "https")
          then str "443" else str "80") :=
  ⟨by decide, by decide, by decide,
    (Prepare_implicit_port goEnv httpsConfig fuzzInput
      { Scheme := str "https", Host := str "example.com" } (by decide) (by decide)).2.2⟩

/-- The scheme of `HTTPS://example.com/` is `https` and `Prepare` puts `80`
for `{PORT}`; the scheme of `httpsx://example.com/` is not `https` and
`Prepare` puts `443`. -/
theorem Prepare_port_by_prefix :
    urlParse (Clean (tempURL upperSchemeConfig.Url)) =
      some { Scheme := str "https", Host := str "example.com" } ∧
    (Prepare goEnv upperSchemeConfig []).Data = str "80" ∧
    urlParse (Clean (tempURL longSchemeConfig.Url)) =
      some { Scheme := str "httpsx", Host := str "example.com" } ∧
    (Prepare goEnv longSchemeConfig []).Data = str "443" := by
  decide

/-- Claim C3, at an IPv6 authority.  The URL `http://[::1]:8080/p` parses to
the authority `[::1]:8080`, with the port 8080; `Prepare` cuts it at its
first colons and puts `[` for `{HOST}`, the empty string for `{PORT}` and the
whole authority for `{HOSTPORT}`. -/
theorem Prepare_ipv6_authority :
    urlParse (Clean (tempURL ipv6Config.Url)) =
      some { Scheme := str "http", Host := str "[::1]:8080" } ∧
    hostAndPort (str "[::1]:8080") ipv6Config.Url = (str "[", []) ∧
    (Prepare goEnv ipv6Config []).Data = str "[||[::1]:8080" ∧
    str "[::1]:8080" ≠ str "[" ++ str ":" ++ [] := by
  decide

/-- Claim C8, at a URL that does not parse.  The value `a b` for the keyword
in the host gives the URL `http://a b.example.com/`, which `url.Parse`
rejects; `Prepare` returns before it records the input, and the `Input` of
the request is not the input map. -/
theorem Prepare_parse_error_Input :
    (substituteKeywords goEnv hostKeywordConfig spaceInput).Url =
      str "http://a b.example.com/" ∧
    urlParse (Clean (tempURL (str "http://a b.example.com/"))) = none ∧
    (Prepare goEnv hostKeywordConfig spaceInput).Input = [] ∧
    (Prepare goEnv hostKeywordConfig spaceInput).Input ≠ spaceInput := by
  decide

/-- When the URL parses, `Prepare` records the input map. -/
theorem Prepare_Input_of_parse (env : Env) (config : Config) (input : List (Str × Str))
    (u : URL)
    (h : env.urlParse (env.Clean (tempURL (substituteKeywords env config input).Url)) = some u) :
    (Prepare env config input).Input = input := by
  rw [Prepare_of_parse env config input u h]

theorem substituteLoop_Input (env : Env) (input : List (Str × Str)) : ∀ req : Request,
    (substituteLoop env input req).Input = req.Input := by
  induction input with
  | nil => intro req; rfl
  | cons kv rest ih =>
    obtain ⟨keyword, inputitem⟩ := kv
    intro req
    unfold substituteLoop
    rw [ih]
    rfl

/-- When the URL does not parse, the `Input` of the request is the one that
`NewRequest` gave it, whatever the input map is. -/
theorem Prepare_Input_of_parse_error (env : Env) (config : Config) (input : List (Str × Str))
    (h : env.urlParse (env.Clean (tempURL (substituteKeywords env config input).Url)) = none) :
    (Prepare env config input).Input = (env.NewRequest config).Input := by
  rw [Prepare_of_parse_error env config input h]
  unfold substituteKeywords
  rw [substituteLoop_Input]

/-! ## strings.ReplaceAll for a non-empty pattern -/

theorem hasPrefix_iff (s p : Str) : hasPrefix s p = true ↔ p <+: s := by
  unfold hasPrefix
  exact List.isPrefixOf_iff_prefix

theorem replaceLoop_fuel (old new : Str) (hold : old ≠ []) : ∀ (n m : Nat) (s : Str),
    s.length ≤ n → s.length ≤ m → replaceLoop old new n s = replaceLoop old new m s := by
  intro n
  induction n with
  | zero =>
    intro m s hn _
    have hs : s = [] := List.length_eq_zero.mp (Nat.le_zero.mp hn)
    subst hs
    cases m <;> rfl
  | succ n ih =>
    intro m s hn hm
    cases s with
    | nil => cases m <;> rfl
    | cons c t =>
      cases m with
      | zero => simp at hm
      | succ m =>
        simp only [List.length_cons, Nat.add_le_add_iff_right] at hn hm
        have hpos : 0 < old.length := List.length_pos.mpr hold
        have hd : ((c :: t).drop old.length).length ≤ t.length := by
          simp only [List.length_drop, List.length_cons]
          omega
        simp only [replaceLoop]
        rw [ih m t hn hm, ih m _ (le_trans hd hn) (le_trans hd hm)]

theorem replaceLoop_same (old : Str) : ∀ (n : Nat) (s : Str), replaceLoop old old n s = s := by
  intro n
  induction n with
  | zero => intro s; rfl
  | succ n ih =>
    intro s
    cases s with
    | nil => rfl
    | cons c t =>
      simp only [replaceLoop]
      split_ifs with h
      · rw [ih]
        exact List.prefix_iff_eq_append.mp ((hasPrefix_iff _ _).mp h)
      · rw [ih]

theorem replaceAll_eq_loop (s old new : Str) (hold : old ≠ []) :
    replaceAll s old new = replaceLoop old new s.length s := by
  unfold replaceAll
  by_cases h : old = new
  · rw [if_pos h, ← h, replaceLoop_same]
  · rw [if_neg h, if_neg hold]

theorem replaceAll_nil (old new : Str) (hold : old ≠ []) : replaceAll [] old new = [] := by
  rw [replaceAll_eq_loop _ _ _ hold]
  rfl

/-- At an occurrence of `old`, `ReplaceAll` writes `new` and goes on after
the occurrence. -/
theorem replaceAll_append (t old new : Str) (hold : old ≠ []) :
    replaceAll (old ++ t) old new = new ++ replaceAll t old new := by
  rw [replaceAll_eq_loop _ _ _ hold, replaceAll_eq_loop _ _ _ hold]
  have key : ∀ (c : Nat) (rest : Str), old ++ t = c :: rest →
      replaceLoop old new (c :: rest).length (c :: rest) =
        new ++ replaceLoop old new t.length t := by
    intro c rest h
    have hp : hasPrefix (c :: rest) old = true := by
      rw [← h]
      exact (hasPrefix_iff _ _).mpr (List.prefix_append old t)
    have hd : (c :: rest).drop old.length = t := by
      rw [← h]
      exact List.drop_left _ _
    have hl : t.length ≤ rest.length := by
      have h1 : (old ++ t).length = (c :: rest).length := by rw [h]
      have hpos : 0 < old.length := List.length_pos.mpr hold
      rw [List.length_append, List.length_cons] at h1
      omega
    show replaceLoop old new (rest.length + 1) (c :: rest) = _
    rw [replaceLoop, if_pos hp, hd]
    congr 1
    exact replaceLoop_fuel _ _ hold _ _ _ hl (le_refl _)
  cases hot : old ++ t with
  | nil =>
    have : old = [] := (List.append_eq_nil.mp hot).1
    exact absurd this hold
  | cons c rest => exact key c rest hot

/-- Where no occurrence of `old` starts, `ReplaceAll` copies a byte. -/
theorem replaceAll_cons (c : Nat) (t old new : Str) (hold : old ≠ [])
    (h : ¬ old <+: c :: t) :
    replaceAll (c :: t) old new = c :: replaceAll t old new := by
  rw [replaceAll_eq_loop _ _ _ hold, replaceAll_eq_loop _ _ _ hold]
  have hp : ¬ hasPrefix (c :: t) old = true := fun hh => h ((hasPrefix_iff _ _).mp hh)
  show replaceLoop old new (t.length + 1) (c :: t) = _
  rw [replaceLoop, if_neg hp]

/-- The three cases of a string that `ReplaceAll` reads: the empty string, an
occurrence of `old` at its head, a byte at which no occurrence starts. -/
theorem replaceAll_induction (old : Str) (hold : old ≠ []) (P : Str → Prop)
    (hnil : P [])
    (hmatch : ∀ t, P t → P (old ++ t))
    (hcons : ∀ c t, ¬ old <+: c :: t → P t → P (c :: t)) : ∀ s, P s := by
  intro s
  obtain ⟨n, hn⟩ : ∃ n, s.length = n := ⟨_, rfl⟩
  induction n using Nat.strong_induction_on generalizing s with
  | _ n ih =>
    cases s with
    | nil => exact hnil
    | cons c t =>
      by_cases h : old <+: c :: t
      · obtain ⟨r, hr⟩ := h
        rw [← hr]
        apply hmatch
        apply ih r.length _ r rfl
        have hl : (old ++ r).length = (c :: t).length := by rw [hr]
        have hpos : 0 < old.length := List.length_pos.mpr hold
        rw [List.length_append] at hl
        omega
      · apply hcons c t h
        apply ih t.length _ t rfl
        simp only [List.length_cons] at hn
        omega

/-! ## Occurrences of a keyword after a replacement -/

theorem infix_sep_byte (k p r : Str) (d : Nat) (hd : d ∉ k) (h : k <:+: p ++ d :: r) :
    k <:+: p ∨ k <:+: r := by
  obtain ⟨s, t, hst⟩ := h
  rw [List.append_assoc] at hst
  rcases List.append_eq_append_iff.mp hst with ⟨a, hp, hkt⟩ | ⟨c, hs, hdr⟩
  · rcases List.append_eq_append_iff.mp hkt with ⟨a2, ha, _⟩ | ⟨c2, hk, hdr⟩
    · left
      exact ⟨s, a2, by rw [hp, ha, List.append_assoc]⟩
    · cases c2 with
      | nil =>
        left
        rw [List.append_nil] at hk
        exact ⟨s, [], by rw [hp, hk, List.append_nil]⟩
      | cons x c3 =>
        exfalso
        rw [List.cons_append] at hdr
        have hx : d = x := (List.cons.inj hdr).1
        apply hd
        rw [hk, hx]
        exact List.mem_append_right _ (List.mem_cons_self _ _)
  · cases c with
    | nil =>
      cases k with
      | nil => left; exact List.nil_infix
      | cons x k1 =>
        exfalso
        rw [List.nil_append, List.cons_append] at hdr
        have hx : d = x := (List.cons.inj hdr).1
        apply hd
        rw [hx]
        exact List.mem_cons_self _ _
    | cons x c1 =>
      right
      rw [List.cons_append] at hdr
      exact ⟨c1, t, by rw [List.append_assoc]; exact (List.cons.inj hdr).2.symm⟩

/-- An occurrence of `k` in a string holds no byte of a non-empty word that
shares no byte with `k`: it lies before the word or after it. -/
theorem infix_sep (k : Str) (new : Str) (hnew : new ≠ []) (hd : ∀ b ∈ new, b ∉ k) :
    ∀ p x : Str, k <:+: p ++ new ++ x → k <:+: p ∨ k <:+: x := by
  induction new with
  | nil => exact absurd rfl hnew
  | cons d n ih =>
    intro p x h
    rw [List.append_assoc, List.cons_append] at h
    rcases infix_sep_byte k p (n ++ x) d (hd d (List.mem_cons_self _ _)) h with h1 | h1
    · exact Or.inl h1
    · by_cases hn : n = []
      · subst hn
        exact Or.inr h1
      · have h2 : k <:+: [] ++ n ++ x := by simpa using h1
        rcases ih hn (fun b hb => hd b (List.mem_cons_of_mem _ hb)) [] x h2 with h3 | h3
        · have hk : k = [] := List.infix_nil.mp h3
          rw [hk]
          exact Or.inr (List.nil_infix)
        · exact Or.inr h3

/-- A replacement by a non-empty word that shares no byte with `k` brings no
occurrence of `k` into a string that has none. -/
theorem replaceAll_keeps_free (k old new : Str) (hold : old ≠ []) (hnew : new ≠ [])
    (hd : ∀ b ∈ new, b ∉ k) :
    ∀ s p : Str, ¬ k <:+: p ++ s → ¬ k <:+: p ++ replaceAll s old new := by
  apply replaceAll_induction old hold
  · intro p h
    rw [replaceAll_nil _ _ hold]
    exact h
  · intro t ih p h hk
    rw [replaceAll_append _ _ _ hold, ← List.append_assoc] at hk
    rcases infix_sep k new hnew hd p _ hk with h1 | h1
    · exact h (h1.trans (List.infix_append' [] p (old ++ t)))
    · apply ih [] _ (by simpa using h1)
      intro h2
      apply h
      have h3 : k <:+: t := by simpa using h2
      refine h3.trans ⟨p ++ old, [], ?_⟩
      simp
  · intro c t hc ih p h hk
    rw [replaceAll_cons _ _ _ _ hold hc] at hk
    apply ih (p ++ [c])
    · simpa using h
    · simpa using hk

/-- After the replacement of `old` by a non-empty word that shares no byte
with it, no occurrence of `old` is left. -/
theorem replaceAll_removes (old new : Str) (hold : old ≠ []) (hnew : new ≠ [])
    (hd : ∀ b ∈ new, b ∉ old) (s : Str) : ¬ old <:+: replaceAll s old new := by
  have key : ∀ s p : Str, (∀ q r : Str, p ++ s = q ++ old ++ r → p.length ≤ q.length) →
      ¬ old <:+: p ++ replaceAll s old new := by
    apply replaceAll_induction old hold
    · intro p h hk
      rw [replaceAll_nil _ _ hold] at hk
      obtain ⟨q, r, hqr⟩ := hk
      have h1 := h q r hqr.symm
      have h2 : (q ++ old ++ r).length = (p ++ []).length := by rw [hqr]
      have hpos : 0 < old.length := List.length_pos.mpr hold
      simp only [List.length_append, List.length_nil] at h2
      omega
    · intro t ih p h hk
      rw [replaceAll_append _ _ _ hold, ← List.append_assoc] at hk
      rcases infix_sep old new hnew hd p _ hk with h1 | h1
      · obtain ⟨q, r, hqr⟩ := h1
        have h2 := h q (r ++ (old ++ t)) (by rw [← hqr]; simp)
        have h3 : (q ++ old ++ r).length = p.length := by rw [hqr]
        have hpos : 0 < old.length := List.length_pos.mpr hold
        simp only [List.length_append] at h3
        omega
      · exact ih [] (fun q r _ => Nat.zero_le _) (by simpa using h1)
    · intro c t hc ih p h hk
      rw [replaceAll_cons _ _ _ _ hold hc] at hk
      apply ih (p ++ [c]) _ (by simpa using hk)
      intro q r hqr
      have h1 := h q r (by simpa using hqr)
      rcases Nat.lt_or_ge p.length q.length with h2 | h2
      · simpa using h2
      · exfalso
        have h3 : p.length = q.length := le_antisymm h1 h2
        have h4 : p ++ (c :: t) = q ++ (old ++ r) := by simpa using hqr
        have h5 := (List.append_inj h4 h3).2
        exact hc ⟨r, h5.symm⟩
  have := key s [] (fun q r _ => Nat.zero_le _)
  simpa using this

/-! ## Replacements that do not interfere -/

theorem not_prefix_of_not_mem (k : Str) (d : Nat) (t : Str) (hk : k ≠ []) (hd : d ∉ k) :
    ¬ k <+: d :: t := by
  intro h
  cases k with
  | nil => exact hk rfl
  | cons x k1 =>
    have hx : x = d := (List.cons_prefix_cons.mp h).1
    apply hd
    rw [← hx]
    exact List.mem_cons_self _ _

/-- The replacement of `k` passes over a word that shares no byte with `k`. -/
theorem replaceAll_skip (k v : Str) (hk : k ≠ []) (m : Str) (hd : ∀ x ∈ m, x ∉ k) (b : Str) :
    replaceAll (m ++ b) k v = m ++ replaceAll b k v := by
  induction m with
  | nil => rfl
  | cons d m1 ih =>
    rw [List.cons_append,
      replaceAll_cons _ _ _ _ hk
        (not_prefix_of_not_mem k d _ hk (hd d (List.mem_cons_self _ _))),
      ih (fun x hx => hd x (List.mem_cons_of_mem _ hx))]
    rfl

/-- A word that shares no byte with `k1` and `v1` starts the string after
the replacement of `k1` by `v1` exactly when it starts the string before. -/
theorem prefix_replaceAll_iff (k1 v1 : Str) (hk1 : k1 ≠ []) (hv1 : v1 ≠ []) :
    ∀ u k : Str, (∀ x ∈ k, x ∉ k1 ∧ x ∉ v1) →
      (k <+: replaceAll u k1 v1 ↔ k <+: u) := by
  apply replaceAll_induction k1 hk1
  · intro k _
    rw [replaceAll_nil _ _ hk1]
  · intro t _ k hd
    rw [replaceAll_append _ _ _ hk1]
    cases k with
    | nil => simp
    | cons x k2 =>
      have hx := hd x (List.mem_cons_self _ _)
      constructor
      · intro h
        exfalso
        cases v1 with
        | nil => exact hv1 rfl
        | cons d v2 =>
          rw [List.cons_append] at h
          have : x = d := (List.cons_prefix_cons.mp h).1
          apply hx.2
          rw [this]
          exact List.mem_cons_self _ _
      · intro h
        exfalso
        cases k1 with
        | nil => exact hk1 rfl
        | cons d k3 =>
          rw [List.cons_append] at h
          have : x = d := (List.cons_prefix_cons.mp h).1
          apply hx.1
          rw [this]
          exact List.mem_cons_self _ _
  · intro c t hc ih k hd
    rw [replaceAll_cons _ _ _ _ hk1 hc]
    cases k with
    | nil => simp
    | cons x k2 =>
      rw [List.cons_prefix_cons, List.cons_prefix_cons,
        ih k2 (fun y hy => hd y (List.mem_cons_of_mem _ hy))]

/-- Two replacements whose keywords share no byte, and whose values are not
empty and share no byte with the keyword of the other, can be done in either
order. -/
theorem replaceAll_comm (k1 v1 k2 v2 : Str) (hk1 : k1 ≠ []) (hv1 : v1 ≠ []) (hk2 : k2 ≠ [])
    (hv2 : v2 ≠ []) (hkk : ∀ x ∈ k1, x ∉ k2) (h12 : ∀ x ∈ v1, x ∉ k2)
    (h21 : ∀ x ∈ v2, x ∉ k1) (s : Str) :
    replaceAll (replaceAll s k1 v1) k2 v2 = replaceAll (replaceAll s k2 v2) k1 v1 := by
  have hkk2 : ∀ x ∈ k2, x ∉ k1 := fun x hx hx1 => hkk x hx1 hx
  obtain ⟨n, hn⟩ : ∃ n, s.length = n := ⟨_, rfl⟩
  induction n using Nat.strong_induction_on generalizing s with
  | _ n ih =>
    cases s with
    | nil => rw [replaceAll_nil _ _ hk1, replaceAll_nil _ _ hk2, replaceAll_nil _ _ hk1]
    | cons c t =>
      by_cases h1 : k1 <+: c :: t
      · obtain ⟨r, hr⟩ := h1
        have hlen : r.length < n := by
          have hl : (k1 ++ r).length = (c :: t).length := by rw [hr]
          have hpos : 0 < k1.length := List.length_pos.mpr hk1
          rw [List.length_append] at hl
          omega
        rw [← hr, replaceAll_append _ _ _ hk1, replaceAll_skip k2 v2 hk2 v1 h12,
          replaceAll_skip k2 v2 hk2 k1 hkk, replaceAll_append _ _ _ hk1,
          ih r.length hlen r rfl]
      · by_cases h2 : k2 <+: c :: t
        · obtain ⟨r, hr⟩ := h2
          have hlen : r.length < n := by
            have hl : (k2 ++ r).length = (c :: t).length := by rw [hr]
            have hpos : 0 < k2.length := List.length_pos.mpr hk2
            rw [List.length_append] at hl
            omega
          rw [← hr, replaceAll_append _ _ _ hk2, replaceAll_skip k1 v1 hk1 v2 h21,
            replaceAll_skip k1 v1 hk1 k2 hkk2, replaceAll_append _ _ _ hk2,
            ih r.length hlen r rfl]
        · have hlen : t.length < n := by
            simp only [List.length_cons] at hn
            omega
          have e1 : ¬ k2 <+: c :: replaceAll t k1 v1 := by
            rw [← replaceAll_cons c t k1 v1 hk1 h1,
              prefix_replaceAll_iff k1 v1 hk1 hv1 (c :: t) k2
                (fun x hx => ⟨hkk2 x hx, fun hxv => h12 x hxv hx⟩)]
            exact h2
          have e2 : ¬ k1 <+: c :: replaceAll t k2 v2 := by
            rw [← replaceAll_cons c t k2 v2 hk2 h2,
              prefix_replaceAll_iff k2 v2 hk2 hv2 (c :: t) k1
                (fun x hx => ⟨hkk x hx, fun hxv => h21 x hxv hx⟩)]
            exact h1
          rw [replaceAll_cons c t k1 v1 hk1 h1, replaceAll_cons c t k2 v2 hk2 h2,
            replaceAll_cons _ _ k2 v2 hk2 e1, replaceAll_cons _ _ k1 v1 hk1 e2,
            ih t.length hlen t rfl]

/-! ## The order of the input map -/

theorem nonInterfering_symm : Symmetric nonInterfering := by
  intro a b h
  obtain ⟨h1, h2, h3, h4, h5, h6, h7⟩ := h
  exact ⟨h3, h4, h1, h2, fun x hx hx1 => h5 x hx1 hx, h7, h6⟩

theorem substituteLoop_fields (env : Env) (input : List (Str × Str)) : ∀ req : Request,
    (substituteLoop env input req).Method = substituteAll input req.Method ∧
    (substituteLoop env input req).Url = substituteAll input req.Url ∧
    (substituteLoop env input req).Opaque = substituteAll input req.Opaque ∧
    (substituteLoop env input req).Data = substituteAll input req.Data := by
  induction input with
  | nil => intro req; exact ⟨rfl, rfl, rfl, rfl⟩
  | cons kv rest ih =>
    obtain ⟨keyword, inputitem⟩ := kv
    intro req
    unfold substituteLoop
    obtain ⟨h1, h2, h3, h4⟩ := ih (substituteStep env rest.length req keyword inputitem)
    rw [h1, h2, h3, h4]
    exact ⟨rfl, rfl, rfl, rfl⟩

theorem substituteAll_perm (input1 input2 : List (Str × Str)) (hp : input1.Perm input2)
    (hn : input1.Pairwise nonInterfering) (s : Str) :
    substituteAll input1 s = substituteAll input2 s := by
  unfold substituteAll
  apply List.Perm.foldl_eq' hp
  intro x hx y hy z
  by_cases hxy : x = y
  · rw [hxy]
  · obtain ⟨h1, h2, h3, h4, h5, h6, h7⟩ := hn.forall nonInterfering_symm hx hy hxy
    exact replaceAll_comm x.1 x.2 y.1 y.2 h1 h2 h3 h4 h5 h6 h7 z

/-- Claim C10, as the code has it.  For two orders in which the entries of an
input map are visited, the entries not interfering with each other, `Prepare`
returns the same `Url`, `Method`, `Opaque` and `Data`. -/
theorem Prepare_order_independent (env : Env) (config : Config)
    (input1 input2 : List (Str × Str)) (hp : input1.Perm input2)
    (hn : input1.Pairwise nonInterfering) :
    (Prepare env config input1).Url = (Prepare env config input2).Url ∧
    (Prepare env config input1).Method = (Prepare env config input2).Method ∧
    (Prepare env config input1).Opaque = (Prepare env config input2).Opaque ∧
    (Prepare env config input1).Data = (Prepare env config input2).Data := by
  have f1 := substituteLoop_fields env input1
    { env.NewRequest config with
      Headers := config.Headers, Url := config.Url, Opaque := config.Opaque,
      Method := config.Method, Data := config.Data }
  have f2 := substituteLoop_fields env input2
    { env.NewRequest config with
      Headers := config.Headers, Url := config.Url, Opaque := config.Opaque,
      Method := config.Method, Data := config.Data }
  have hM : (substituteKeywords env config input1).Method =
      (substituteKeywords env config input2).Method := by
    unfold substituteKeywords
    rw [f1.1, f2.1]
    exact substituteAll_perm input1 input2 hp hn _
  have hU : (substituteKeywords env config input1).Url =
      (substituteKeywords env config input2).Url := by
    unfold substituteKeywords
    rw [f1.2.1, f2.2.1]
    exact substituteAll_perm input1 input2 hp hn _
  have hO : (substituteKeywords env config input1).Opaque =
      (substituteKeywords env config input2).Opaque := by
    unfold substituteKeywords
    rw [f1.2.2.1, f2.2.2.1]
    exact substituteAll_perm input1 input2 hp hn _
  have hD : (substituteKeywords env config input1).Data =
      (substituteKeywords env config input2).Data := by
    unfold substituteKeywords
    rw [f1.2.2.2, f2.2.2.2]
    exact substituteAll_perm input1 input2 hp hn _
  cases h : env.urlParse (env.Clean (tempURL (substituteKeywords env config input1).Url)) with
  | none =>
    have h2 := h
    rw [hU] at h2
    rw [Prepare_of_parse_error env config input1 h, Prepare_of_parse_error env config input2 h2]
    exact ⟨hU, hM, hO, hD⟩
  | some u =>
    have h2 := h
    rw [hU] at h2
    rw [Prepare_of_parse env config input1 u h, Prepare_of_parse env config input2 u h2]
    simp only [hU, hM, hO, hD, and_self]

theorem Prepare_order_independent_witness :
    twoKeywordInput.Perm twoKeywordInputSwapped ∧
    twoKeywordInput.Pairwise nonInterfering ∧
    (Prepare goEnv twoKeywordConfig twoKeywordInput).Url = str "http://example.com/abc?q=q" ∧
    (Prepare goEnv twoKeywordConfig twoKeywordInput).Url =
      (Prepare goEnv twoKeywordConfig twoKeywordInputSwapped).Url ∧
    (Prepare goEnv twoKeywordConfig twoKeywordInput).Method =
      (Prepare goEnv twoKeywordConfig twoKeywordInputSwapped).Method ∧
    (Prepare goEnv twoKeywordConfig twoKeywordInput).Opaque =
      (Prepare goEnv twoKeywordConfig twoKeywordInputSwapped).Opaque ∧
    (Prepare goEnv twoKeywordConfig twoKeywordInput).Data =
      (Prepare goEnv twoKeywordConfig twoKeywordInputSwapped).Data :=
  ⟨List.Perm.swap _ _ _, by decide, by decide,
    Prepare_order_independent goEnv twoKeywordConfig twoKeywordInput twoKeywordInputSwapped
      (List.Perm.swap _ _ _) (by decide)⟩

/-- The two orders of the map `FUZZ: W2, W2: x` give two URLs: with `FUZZ`
first the path becomes `W2` and then `x`, with `W2` first it becomes `W2`. -/
theorem Prepare_order_dependent :
    chainedInput.Perm chainedInputSwapped ∧
    (Prepare goEnv pathConfig chainedInput).Url = str "http://example.com/x" ∧
    (Prepare goEnv pathConfig chainedInputSwapped).Url = str "http://example.com/W2" ∧
    (Prepare goEnv pathConfig chainedInput).Url ≠
      (Prepare goEnv pathConfig chainedInputSwapped).Url :=
  ⟨List.Perm.swap _ _ _, by decide, by decide, by decide⟩

/-- The header names depend on the order even when the entries do not
interfere: the name `xW2` is made canonical, `Xw2`, in the round of `FUZZ`,
and the keyword `W2` is then no longer in it. -/
theorem Prepare_header_order_dependent :
    twoKeywordInput.Pairwise nonInterfering ∧
    (Prepare goEnv twoKeywordConfig twoKeywordInput).Headers = [(str "Xw2", str "abc")] ∧
    (Prepare goEnv twoKeywordConfig twoKeywordInputSwapped).Headers =
      [(str "Xq", str "abc")] := by
  decide

/-! ## Keywords left in the request -/

/-- Go `strings.Contains` holds when the word occurs in the string. -/
theorem contains_iff (s sub : Str) : contains s sub = true ↔ sub <:+: s := by
  induction s with
  | nil =>
    simp only [contains, List.infix_nil, List.isEmpty_iff]
  | cons c t ih =>
    simp only [contains, Bool.or_eq_true, hasPrefix_iff, ih]
    exact List.infix_cons_iff.symm

theorem contains_false_iff (s sub : Str) : contains s sub = false ↔ ¬ sub <:+: s := by
  rw [← contains_iff, Bool.not_eq_true]

theorem contains_replaceAll_of_free (k old new s : Str) (hold : old ≠ []) (hnew : new ≠ [])
    (hd : ∀ b ∈ new, b ∉ k) (h : contains s k = false) :
    contains (replaceAll s old new) k = false := by
  rw [contains_false_iff] at h ⊢
  have := replaceAll_keeps_free k old new hold hnew hd s [] (by simpa using h)
  simpa using this

theorem contains_replaceAll_self (old new s : Str) (hold : old ≠ []) (hnew : new ≠ [])
    (hd : ∀ b ∈ new, b ∉ old) : contains (replaceAll s old new) old = false := by
  rw [contains_false_iff]
  exact replaceAll_removes old new hold hnew hd s

theorem substituteHeaders_values (Q : Str → Prop) (keyword inputitem : Str) (hs : Headers)
    (h : ∀ hv ∈ hs, Q (replaceAll hv.2 keyword inputitem)) :
    ∀ hv ∈ substituteHeaders keyword inputitem hs, Q hv.2 := by
  unfold substituteHeaders
  exact foldl_mapSet_values Q _ _ hs h [] (fun _ hx => absurd hx (List.not_mem_nil _))

/-- A round of the substitution loop whose value is not empty and shares no
byte with `k` keeps a request free of `k`. -/
theorem substituteStep_keeps (env : Env) (n : Nat) (req : Request) (k keyword inputitem : Str)
    (hold : keyword ≠ []) (hnew : inputitem ≠ []) (hd : ∀ b ∈ inputitem, b ∉ k)
    (h : freeOf k req) : freeOf k (substituteStep env n req keyword inputitem) := by
  obtain ⟨h1, h2, h3, h4, h5⟩ := h
  refine ⟨contains_replaceAll_of_free k _ _ _ hold hnew hd h1,
    contains_replaceAll_of_free k _ _ _ hold hnew hd h2,
    contains_replaceAll_of_free k _ _ _ hold hnew hd h3,
    contains_replaceAll_of_free k _ _ _ hold hnew hd h4, ?_⟩
  apply substituteHeaders_values (fun v => contains v k = false)
  intro hv hmem
  exact contains_replaceAll_of_free k _ _ _ hold hnew hd
    (h5 hv ((env.rangeOrder_perm n req.Headers).subset hmem))

/-- The round of the keyword itself, the value not empty and sharing no byte
with the keyword, leaves a request free of the keyword. -/
theorem substituteStep_removes (env : Env) (n : Nat) (req : Request) (keyword inputitem : Str)
    (hold : keyword ≠ []) (hnew : inputitem ≠ []) (hd : ∀ b ∈ inputitem, b ∉ keyword) :
    freeOf keyword (substituteStep env n req keyword inputitem) := by
  refine ⟨contains_replaceAll_self _ _ _ hold hnew hd,
    contains_replaceAll_self _ _ _ hold hnew hd,
    contains_replaceAll_self _ _ _ hold hnew hd,
    contains_replaceAll_self _ _ _ hold hnew hd, ?_⟩
  apply substituteHeaders_values (fun v => contains v keyword = false)
  intro hv _
  exact contains_replaceAll_self _ _ _ hold hnew hd

theorem substituteLoop_keeps (env : Env) (k : Str) (input : List (Str × Str))
    (hk : ∀ kv ∈ input, kv.1 ≠ [])
    (hv : ∀ kv ∈ input, kv.2 ≠ [] ∧ ∀ b ∈ kv.2, b ∉ k) :
    ∀ req : Request, freeOf k req → freeOf k (substituteLoop env input req) := by
  induction input with
  | nil => intro req h; exact h
  | cons kv rest ih =>
    obtain ⟨keyword, inputitem⟩ := kv
    intro req h
    unfold substituteLoop
    apply ih (fun x hx => hk x (List.mem_cons_of_mem _ hx))
      (fun x hx => hv x (List.mem_cons_of_mem _ hx))
    exact substituteStep_keeps env _ req k keyword inputitem
      (hk _ (List.mem_cons_self _ _)) (hv _ (List.mem_cons_self _ _)).1
      (hv _ (List.mem_cons_self _ _)).2 h

theorem substituteLoop_removes (env : Env) (k : Str) (input : List (Str × Str))
    (hk : ∀ kv ∈ input, kv.1 ≠ [])
    (hv : ∀ kv ∈ input, kv.2 ≠ [] ∧ ∀ b ∈ kv.2, b ∉ k)
    (hmem : k ∈ input.map Prod.fst) :
    ∀ req : Request, freeOf k (substituteLoop env input req) := by
  induction input with
  | nil => simp at hmem
  | cons kv rest ih =>
    obtain ⟨keyword, inputitem⟩ := kv
    intro req
    unfold substituteLoop
    by_cases hkey : k = keyword
    · subst hkey
      apply substituteLoop_keeps env k rest
        (fun x hx => hk x (List.mem_cons_of_mem _ hx))
        (fun x hx => hv x (List.mem_cons_of_mem _ hx))
      exact substituteStep_removes env _ req k inputitem
        (hk _ (List.mem_cons_self _ _)) (hv _ (List.mem_cons_self _ _)).1
        (hv _ (List.mem_cons_self _ _)).2
    · apply ih (fun x hx => hk x (List.mem_cons_of_mem _ hx))
        (fun x hx => hv x (List.mem_cons_of_mem _ hx))
      simp only [List.map_cons, List.mem_cons] at hmem
      rcases hmem with h | h
      · exact absurd h hkey
      · exact h

theorem HOST_KEYWORD_ne : HOST_KEYWORD ≠ [] := by decide

theorem HOSTPORT_KEYWORD_ne : HOSTPORT_KEYWORD ≠ [] := by decide

theorem PORT_KEYWORD_ne : PORT_KEYWORD ≠ [] := by decide

theorem substituteDerived_keeps (k s host hostport port : Str)
    (h1 : host ≠ [] ∧ ∀ b ∈ host, b ∉ k) (h2 : hostport ≠ [] ∧ ∀ b ∈ hostport, b ∉ k)
    (h3 : port ≠ [] ∧ ∀ b ∈ port, b ∉ k) (h : contains s k = false) :
    contains (substituteDerived s host hostport port) k = false := by
  unfold substituteDerived
  exact contains_replaceAll_of_free k _ _ _ PORT_KEYWORD_ne h3.1 h3.2
    (contains_replaceAll_of_free k _ _ _ HOSTPORT_KEYWORD_ne h2.1 h2.2
      (contains_replaceAll_of_free k _ _ _ HOST_KEYWORD_ne h1.1 h1.2 h))

/-- Claim C1, as the code has it.  For an input map whose keywords are not
empty and whose values are not empty and share no byte with any keyword, the
strings put for the reserved placeholders being so too, the request that
`Prepare` returns holds no keyword of the map in `Url`, `Method`, `Opaque`,
`Data` or the value of a header. -/
theorem Prepare_no_keyword_left (env : Env) (config : Config) (input : List (Str × Str))
    (hk : ∀ kv ∈ input, kv.1 ≠ [])
    (hv : ∀ kv ∈ input, apartFromKeywords input kv.2)
    (hw : ∀ w ∈ derivedWords env config input, apartFromKeywords input w) :
    ∀ kv ∈ input, freeOf kv.1 (Prepare env config input) := by
  intro kv hkv
  have hfree : freeOf kv.1 (substituteKeywords env config input) := by
    unfold substituteKeywords
    apply substituteLoop_removes env kv.1 input hk
    · intro x hx
      exact ⟨(hv x hx).1, (hv x hx).2 kv hkv⟩
    · exact List.mem_map_of_mem Prod.fst hkv
  cases h : env.urlParse (env.Clean (tempURL (substituteKeywords env config input).Url)) with
  | none =>
    rw [Prepare_of_parse_error env config input h]
    exact hfree
  | some u =>
    rw [Prepare_of_parse env config input u h]
    unfold derivedWords at hw
    rw [h] at hw
    have w1 := hw _ (List.mem_cons_self _ _)
    have w2 := hw u.Host (List.mem_cons_of_mem _ (List.mem_cons_self _ _))
    have w3 := hw (hostAndPort u.Host (substituteKeywords env config input).Url).2
      (List.mem_cons_of_mem _ (List.mem_cons_of_mem _ (List.mem_cons_self _ _)))
    have a1 := And.intro w1.1 (w1.2 kv hkv)
    have a2 := And.intro w2.1 (w2.2 kv hkv)
    have a3 := And.intro w3.1 (w3.2 kv hkv)
    obtain ⟨f1, f2, f3, f4, f5⟩ := hfree
    exact ⟨f1, substituteDerived_keeps _ _ _ _ _ a1 a2 a3 f2,
      substituteDerived_keeps _ _ _ _ _ a1 a2 a3 f3,
      substituteDerived_keeps _ _ _ _ _ a1 a2 a3 f4, f5⟩

theorem Prepare_no_keyword_left_witness :
    (∀ kv ∈ twoKeywordInput, kv.1 ≠ []) ∧
    (∀ kv ∈ twoKeywordInput, apartFromKeywords twoKeywordInput kv.2) ∧
    derivedWords goEnv twoKeywordConfig twoKeywordInput =
      [str "example.com", str "example.com", str "80"] ∧
    (Prepare goEnv twoKeywordConfig twoKeywordInput).Data = str "a=abc&b=q" ∧
    ∀ kv ∈ twoKeywordInput, freeOf kv.1 (Prepare goEnv twoKeywordConfig twoKeywordInput) :=
  ⟨by decide, by decide, by decide, by decide,
    Prepare_no_keyword_left goEnv twoKeywordConfig twoKeywordInput (by decide) (by decide)
      (by decide)⟩

/-- A header name can hold a keyword that the template does not hold: the
name `x-a` has no occurrence of the keyword `X-A`, and its canonical form is
the keyword. -/
theorem Prepare_keyword_in_canonical_name :
    (∀ kv ∈ upperNameInput, apartFromKeywords upperNameInput kv.2) ∧
    contains (str "x-a") (str "X-A") = false ∧
    (Prepare goEnv lowerNameConfig upperNameInput).Headers = [(str "X-A", str "v")] := by
  decide

/-- The template holds the keyword `FUZZ` alone and the value for `FUZZ`
holds `FUZZ`: the URL of the request still holds the keyword. -/
theorem Prepare_keyword_from_value :
    (Prepare goEnv pathConfig selfInput).Url = str "http://example.com/aFUZZ" ∧
    contains (Prepare goEnv pathConfig selfInput).Url (str "FUZZ") = true := by
  decide

/-! ## An authority with one colon -/

theorem split_intercalate (s : Str) (sep : Nat) : [sep].intercalate (split s sep) = s := by
  induction s with
  | nil => rfl
  | cons c rest ih =>
    unfold split
    by_cases h : c = sep
    · rw [if_pos h]
      have hne := split_ne_nil rest sep
      cases hs : split rest sep with
      | nil => exact absurd hs hne
      | cons seg segs =>
        rw [hs] at ih
        rw [← ih, h]
        rfl
    · rw [if_neg h]
      have hne := split_ne_nil rest sep
      cases hs : split rest sep with
      | nil => exact absurd hs hne
      | cons seg segs =>
        rw [hs] at ih
        rw [← ih]
        cases segs <;> rfl

theorem contains_byte_iff (s : Str) (c : Nat) : contains s [c] = true ↔ c ∈ s := by
  induction s with
  | nil => simp [contains]
  | cons d t ih =>
    simp only [contains, Bool.or_eq_true, ih, hasPrefix_iff, List.mem_cons]
    constructor
    · rintro (h | h)
      · exact Or.inl (List.cons_prefix_cons.mp h).1
      · exact Or.inr h
    · rintro (h | h)
      · left
        rw [h]
        exact List.cons_prefix_cons.mpr ⟨rfl, List.nil_prefix⟩
      · exact Or.inr h

/-- For an authority with one colon, the host and the port that `Prepare`
takes from it join to the authority. -/
theorem hostAndPort_join (uHost url : Str) (h : uHost.count 58 = 1) :
    (hostAndPort uHost url).1 ++ str ":" ++ (hostAndPort uHost url).2 = uHost := by
  have hc : contains uHost (str ":") = true := by
    apply (contains_byte_iff uHost 58).mpr
    apply List.count_pos_iff.mp
    omega
  have hl := split_length uHost 58
  rw [h] at hl
  have hj := split_intercalate uHost 58
  unfold hostAndPort
  rw [if_pos hc]
  match hs : split uHost 58, hl with
  | [a, b], _ =>
    rw [hs] at hj
    simp only [List.getD_cons_zero, List.getD_cons_succ]
    rw [← hj]
    simp [List.intercalate, str]

/-- When the URL parses and its authority is a host, one colon and a port,
`Prepare` puts the host for `{HOST}`, the port for `{PORT}` and their join
for `{HOSTPORT}`. -/
theorem Prepare_explicit_port (env : Env) (config : Config) (input : List (Str × Str))
    (u : URL)
    (h : env.urlParse (env.Clean (tempURL (substituteKeywords env config input).Url)) = some u)
    (hc : u.Host.count 58 = 1) :
    ∃ host port : Str, host ++ str ":" ++ port = u.Host ∧
      (Prepare env config input).Url =
        substituteDerived (substituteKeywords env config input).Url host
          (host ++ str ":" ++ port) port ∧
      (Prepare env config input).Opaque =
        substituteDerived (substituteKeywords env config input).Opaque host
          (host ++ str ":" ++ port) port ∧
      (Prepare env config input).Data =
        substituteDerived (substituteKeywords env config input).Data host
          (host ++ str ":" ++ port) port := by
  refine ⟨(hostAndPort u.Host (substituteKeywords env config input).Url).1,
    (hostAndPort u.Host (substituteKeywords env config input).Url).2,
    hostAndPort_join u.Host _ hc, ?_⟩
  rw [hostAndPort_join u.Host _ hc, Prepare_of_parse env config input u h]
  exact ⟨rfl, rfl, rfl⟩

end Ffuf
